import Mathlib

/-!
Shallow embedding of the netlist core of the `ferrum_hls` repository
(crates `fhdl_netlist`, `fhdl_data_structures`, `ferrum_compiler`) together
with theorems that settle the claims of its natural-language specification.

Machine integers (`u128`) are modelled as `Nat` with explicit `% 2 ^ 128`
bounds where overflow matters; Rust panics (failed `assert!`, `expect`,
division by zero, checked arithmetic) are modelled as `Option.none`.
The helper `fhdl_const_func::mask` is not under `src/`; per the spec a value
is "masked to the declared width", so `mask w` is the all-ones value
`2 ^ w - 1` and `val & mask(w)` is modelled as `val % 2 ^ w`.
-/

namespace Fhdl

/-- Bit width of the `u128` backing container of `ConstVal`. -/
def u128Size : Nat := 2 ^ 128

/-- `fn val_(val, width)` from `const_val.rs`: `val & mask(width)`, i.e. the
value masked to `width` bits, modelled arithmetically as `val % 2 ^ width`. -/
def val_ (val width : Nat) : Nat := val % 2 ^ width

/-- `struct ConstVal { val: u128, width: u128 }` from `const_val.rs`.
`val` is the raw stored magnitude; every constructor of the source keeps it
masked to `width`. -/
structure ConstVal where
  val : Nat
  width : Nat
  deriving DecidableEq, Repr

namespace ConstVal

/-- `ConstVal::new`: masks the magnitude to the declared width. The source
asserts `width <= 128`; theorems about `new` therefore only instantiate it at
widths `≤ 128` (`binOpRes` below models the assert where results are built). -/
def new (val width : Nat) : ConstVal := ⟨val_ val width, width⟩

/-- `ConstVal::zero`. -/
def zero (width : Nat) : ConstVal := ⟨0, width⟩

/-- `ConstVal::val(&self)`: the magnitude masked to the declared width
(named `value` here because the raw field is already called `val`). -/
def value (c : ConstVal) : Nat := val_ c.val c.width

/-- `ConstVal::shift`: concatenation ("shift-in") that widens the stored
width by the appended operand's width; `assert!(self.width <= 128)` after
widening is modelled by returning `none`.  The bit operations mirror
`self.val <<= width; self.val |= val & mask(width)`. -/
def shift (c newVal : ConstVal) : Option ConstVal :=
  let w := c.width + newVal.width
  if w ≤ 128 then
    some ⟨(c.val <<< newVal.width) ||| (newVal.val % 2 ^ newVal.width), w⟩
  else
    none

end ConstVal

/-- `fn op_width`: `assert_eq!(lhs.width, rhs.width)` then the common width.
The failed assert (a Rust panic) is `none`. -/
def op_width (lhs rhs : ConstVal) : Option Nat :=
  if lhs.width = rhs.width then some lhs.width else none

/-- `fn bin_op(val, lhs, rhs) = ConstVal::new(val, op_width(lhs, rhs))`,
including `ConstVal::new`'s `assert!(width <= 128)`. -/
def binOpRes (val : Nat) (lhs rhs : ConstVal) : Option ConstVal :=
  match op_width lhs rhs with
  | some w => if w ≤ 128 then some (ConstVal.new val w) else none
  | none => none

namespace ConstVal

/-- `impl Add`: `checked_add` on the raw `u128` magnitudes (panic on 128-bit
container overflow), then `bin_op`. -/
def addOp (a b : ConstVal) : Option ConstVal :=
  if a.val + b.val < u128Size then binOpRes (a.val + b.val) a b else none

/-- `impl Sub`: `checked_sub` on the raw `u128` magnitudes (panic when the
subtrahend exceeds the minuend — unsigned underflow), then `bin_op`. -/
def subOp (a b : ConstVal) : Option ConstVal :=
  if b.val ≤ a.val then binOpRes (a.val - b.val) a b else none

/-- `impl Mul`: `checked_mul` on the raw magnitudes, then `bin_op`. -/
def mulOp (a b : ConstVal) : Option ConstVal :=
  if a.val * b.val < u128Size then binOpRes (a.val * b.val) a b else none

/-- `impl Div`: `self.val / rhs.val` (Rust `u128` division panics on a zero
divisor), then `bin_op`. -/
def divOp (a b : ConstVal) : Option ConstVal :=
  if b.val = 0 then none else binOpRes (a.val / b.val) a b

/-- `impl Rem`: `self.val % rhs.val`, panics on a zero divisor. -/
def remOp (a b : ConstVal) : Option ConstVal :=
  if b.val = 0 then none else binOpRes (a.val % b.val) a b

/-- `impl BitAnd`: bitwise and of the raw magnitudes. -/
def landOp (a b : ConstVal) : Option ConstVal := binOpRes (a.val &&& b.val) a b

/-- `impl BitOr`: bitwise or of the raw magnitudes. -/
def lorOp (a b : ConstVal) : Option ConstVal := binOpRes (a.val ||| b.val) a b

/-- `impl BitXor`: bitwise xor of the raw magnitudes. -/
def lxorOp (a b : ConstVal) : Option ConstVal := binOpRes (a.val ^^^ b.val) a b

/-- `impl Shl`: `val_(self.val, width) << val_(rhs.val, width)`; a shift
amount `≥ 128` overflows the `u128` shift (a Rust panic, `none`), an
in-range result is truncated to 128 bits by the container. -/
def shlOp (a b : ConstVal) : Option ConstVal :=
  match op_width a b with
  | some w =>
    if val_ b.val w < 128 then
      binOpRes ((val_ a.val w <<< val_ b.val w) % u128Size) a b
    else none
  | none => none

/-- `impl Shr`: logical right shift of the masked operands; shift amounts
`≥ 128` panic. -/
def shrOp (a b : ConstVal) : Option ConstVal :=
  match op_width a b with
  | some w =>
    if val_ b.val w < 128 then binOpRes (val_ a.val w >>> val_ b.val w) a b
    else none
  | none => none

/-- `ConstVal::sra`: `((val_(self.val, width) as i128) >> val_(rhs.val, width))
as u128`.  For a masked operand with bit 127 clear the arithmetic shift equals
the logical one; with bit 127 set (only possible at width 128) the vacated
high bits are filled with ones. -/
def sraOp (a b : ConstVal) : Option ConstVal :=
  match op_width a b with
  | some w =>
    let x := val_ a.val w
    let s := val_ b.val w
    if s < 128 then
      if x < 2 ^ 127 then binOpRes (x >>> s) a b
      else binOpRes ((x >>> s) + (u128Size - 2 ^ (128 - s))) a b
    else none
  | none => none

/-- `impl PartialEq`: `op_width` asserts equal widths (panic on mismatch),
then compares the width-masked magnitudes. -/
def eqOp (a b : ConstVal) : Option Bool :=
  match op_width a b with
  | some w => some (val_ a.val w == val_ b.val w)
  | none => none

/-- `impl Ord::cmp` (and through it `PartialOrd`): `op_width` asserts equal
widths, then compares the width-masked magnitudes. -/
def cmpOp (a b : ConstVal) : Option Ordering :=
  match op_width a b with
  | some w => some (compare (val_ a.val w) (val_ b.val w))
  | none => none

/-- Rust `a < b` on `ConstVal` (via `PartialOrd`, hence via `cmp`). -/
def ltOp (a b : ConstVal) : Option Bool :=
  (cmpOp a b).map (fun o => o == Ordering.lt)

/-- Rust `a <= b` on `ConstVal` (via `PartialOrd`, hence via `cmp`). -/
def leOp (a b : ConstVal) : Option Bool :=
  (cmpOp a b).map (fun o => o ≠ Ordering.gt)

/-- `impl From<bool> for ConstVal`: a width-1 value. -/
def ofBool (b : Bool) : ConstVal :=
  if b then ConstVal.new 1 1 else ConstVal.new 0 1

end ConstVal

/-- `enum BinOp` from `fhdl_netlist` (the dyadic operator set of the spec's
§4.3 table). -/
inductive BinOp
  | add | sub | mul | div | bitAnd | rem | bitOr | bitXor
  | and | or | sll | slr | sra
  | eq | ne | ge | gt | le | lt
  deriving DecidableEq, Repr

/-- `ConstVal::eval_bin_op` from `const_val.rs`, line for line.  Note the
source's `BinOp::Or => self & other` arm: logical or is evaluated with
bitwise AND. -/
def ConstVal.eval_bin_op (a b : ConstVal) (op : BinOp) : Option ConstVal :=
  match op with
  | .add => a.addOp b
  | .sub => a.subOp b
  | .mul => a.mulOp b
  | .div => a.divOp b
  | .bitAnd => a.landOp b
  | .rem => a.remOp b
  | .bitOr => a.lorOp b
  | .bitXor => a.lxorOp b
  | .and => a.landOp b
  | .or => a.landOp b
  | .sll => a.shlOp b
  | .slr => a.shrOp b
  | .sra => a.sraOp b
  | .eq => (a.eqOp b).map (fun r => ConstVal.ofBool r)
  | .ne => (a.eqOp b).map (fun r => ConstVal.ofBool (!r))
  | .ge => (a.cmpOp b).map (fun o => ConstVal.ofBool (o ≠ Ordering.lt))
  | .gt => (a.cmpOp b).map (fun o => ConstVal.ofBool (o == Ordering.gt))
  | .le => (a.cmpOp b).map (fun o => ConstVal.ofBool (o ≠ Ordering.gt))
  | .lt => (a.cmpOp b).map (fun o => ConstVal.ofBool (o == Ordering.lt))

/-! ## Graph store and module model

`Port`, nodes and edges follow `fhdl_data_structures/src/graph.rs` and the
node structs under `fhdl_netlist/src/node/`.  The `Module` container itself
(`fhdl_netlist/src/netlist/module.rs`) is not under `src/`; its accessors
(`incoming`, `outgoing`, `to_const`, `mod_outputs`, …) are modelled from the
spec (§3, §4.1, §6) and from how the visitors under `src/` use them.
Node and edge identifiers are dense indices; edges are kept in insertion
order, matching the intrusive adjacency lists of the graph store. -/

/-- `Port { node: NodeId, port: u32 }` from `graph.rs`. -/
structure Port where
  node : Nat
  port : Nat
  deriving DecidableEq, Repr

/-- `NodeOutput`: a type (collapsed to its bit width, the only component the
pipeline consults), an optional display symbol (interned, collapsed to a
numeral) and the dead-code `skip` mark. -/
structure NodeOutput where
  width : Nat
  sym : Option Nat
  skip : Bool
  deriving DecidableEq, Repr

/-- The closed node-kind set (spec §4.3; structs under `fhdl_netlist/src/node/`).
Kind-specific payloads are kept only where a claim's code path reads them:
`Const`/`MultiConst` values, the `Merger`/`Splitter` `rev` flags, the
`BinOp` operator, the `DFF` optional-input layout and the `ModInst` target. -/
inductive NodeKind
  | input
  | pass
  | const (value : Nat)
  | multiConst (values : List Nat)
  | merger (rev : Bool)
  | splitter (rev : Bool)
  | extendK (signExt : Bool)
  | bitNot
  | binOp (op : BinOp)
  | switch
  | dff (hasRst hasEn : Bool)
  | modInst (modId : Nat)
  deriving DecidableEq, Repr

/-- A stored node: tagged kind, owned outputs, dead-code `skip` mark. -/
structure Node where
  kind : NodeKind
  outputs : List NodeOutput
  skip : Bool
  deriving DecidableEq, Repr

/-- A module: insertion-ordered node list, edge list (producer port,
consumer port) in insertion order, designated input/output ports, the
caller-side `inline` hint and the whole-module `skip` flag. -/
structure Module where
  nodes : List Node
  edges : List (Port × Port)
  modInputs : List Port
  modOutputs : List Port
  inline : Bool
  skip : Bool
  deriving DecidableEq, Repr

/-- Modify the `i`-th element of a list in place (helper for the in-place
mutations of the source). -/
def listModify (f : α → α) : Nat → List α → List α
  | _, [] => []
  | 0, a :: as => f a :: as
  | n + 1, a :: as => a :: listModify f n as

namespace Module

/-- Node lookup by id. -/
def node? (m : Module) (n : Nat) : Option Node := m.nodes.get? n

/-- Node kind lookup by id. -/
def kindAt (m : Module) (n : Nat) : Option NodeKind := (m.node? n).map (·.kind)

/-- `module.incoming(node)`: producer ports of the edges entering `n`, in
adjacency (insertion) order. -/
def incoming (m : Module) (n : Nat) : List Port :=
  (m.edges.filter (fun e => e.2.node == n)).map (·.1)

/-- `module.outgoing(port)` as consumed by `Reachability`: the consumer
node ids of the edges leaving exactly this output port, in adjacency order. -/
def outgoingNodes (m : Module) (p : Port) : List Nat :=
  (m.edges.filter (fun e => e.1 == p)).map (fun e => e.2.node)

/-- The `NodeOutput` a port resolves to. -/
def output? (m : Module) (p : Port) : Option NodeOutput :=
  (m.node? p.node).bind (fun nd => nd.outputs.get? p.port)

/-- Width of the value produced at a port (`0` for an invalid port; the
source would panic there, and the visitors only reach valid ports on
well-formed modules). -/
def widthAt (m : Module) (p : Port) : Nat :=
  ((m.output? p).map (·.width)).getD 0

/-- The `skip` mark of a port's `NodeOutput` (an invalid port defaults to
`true`, the presumptively-dead initial state). -/
def outSkip (m : Module) (p : Port) : Bool :=
  ((m.output? p).map (·.skip)).getD true

/-- The `skip` mark of a node (an invalid id defaults to `true`). -/
def nodeSkip (m : Module) (n : Nat) : Bool :=
  ((m.node? n).map (·.skip)).getD true

/-- Modelled from the spec: `module.to_const(port)` — "query whether a
`Port` currently resolves to a known constant, and to its value if so"
(§6).  A `Const` node's single output and each `MultiConst` output resolve
to their stored value masked to the output's declared width. -/
def to_const (m : Module) (p : Port) : Option ConstVal :=
  match m.kindAt p.node with
  | some (.const v) =>
    if p.port = 0 then some (ConstVal.new v (m.widthAt p)) else none
  | some (.multiConst vs) =>
    (vs.get? p.port).map (fun v => ConstVal.new v (m.widthAt p))
  | _ => none

/-- `module.is_const(port)`. -/
def isConst (m : Module) (p : Port) : Bool := (m.to_const p).isSome

/-- Modelled from the spec: `ModInst::has_ports` (struct not under `src/`) —
whether the instantiation node carries any port, i.e. has at least one
input edge or one output. -/
def hasPorts (m : Module) (n : Nat) : Bool :=
  !(m.incoming n).isEmpty || !(((m.node? n).map (·.outputs)).getD []).isEmpty

/-- The index of the `init` input among a DFF's incoming edges.  Modelled
from the spec's input order for `DFF` (§4.3): clock, optional reset,
optional enable, init constant, data. -/
def dffInitIdx (hasRst hasEn : Bool) : Nat :=
  1 + (cond hasRst 1 0) + (cond hasEn 1 0)

/-- The producer port feeding a DFF node's `init` input
(`DFFInputs { .., init, .. }` in `transform.rs`/`reachability.rs`). -/
def dffInitPort (m : Module) (n : Nat) : Option Port :=
  match m.kindAt n with
  | some (.dff hasRst hasEn) => (m.incoming n).get? (dffInitIdx hasRst hasEn)
  | _ => none

/-- Set the `skip` mark of one port's `NodeOutput`. -/
def setOutSkip (m : Module) (p : Port) (b : Bool) : Module :=
  { m with
    nodes := listModify
      (fun nd =>
        { nd with outputs := listModify (fun o => { o with skip := b }) p.port nd.outputs })
      p.node m.nodes }

/-- Set the `skip` mark of one node. -/
def setNodeSkip (m : Module) (n : Nat) (b : Bool) : Module :=
  { m with nodes := listModify (fun nd => { nd with skip := b }) n m.nodes }

/-- Set the whole-module `skip` flag. -/
def setModSkip (m : Module) (b : Bool) : Module := { m with skip := b }

/-- `module.is_mod_output(port)`. -/
def isModOutput (m : Module) (p : Port) : Bool := m.modOutputs.contains p

/-- `module.mod_in_count()`. -/
def modInCount (m : Module) : Nat := m.modInputs.length

/-- `module.mod_out_count()`. -/
def modOutCount (m : Module) : Nat := m.modOutputs.length

/-- `module.node_count()`. -/
def nodeCount (m : Module) : Nat := m.nodes.length

/-- Modelled from the spec: `module.node_has_const_inputs(node_id)` — the
instantiation's inputs "are already all constant" (§4.5). -/
def nodeHasConstInputs (m : Module) (n : Nat) : Bool :=
  (m.incoming n).all (fun p => m.isConst p)

/-- Modelled from the spec: `module.has_const_outputs()` — "every output of
the target resolves to a constant" (§4.5). -/
def hasConstOutputs (m : Module) : Bool :=
  m.modOutputs.all (fun p => m.isConst p)

end Module

/-! ## Reachability (`fhdl_netlist/src/visitor/reachability.rs`)

The worklist is the source's `Vec` of ports; it is represented head-first
(the list head is the vector's top), so `Vec::pop` is pattern matching on
the head and `Vec::extend(it)` prepends `it` reversed.  The seed
`ports.extend(module.mod_outputs().iter().rev())` therefore becomes the
designated-output list itself.  The unbounded `while let` loop is given
explicit fuel; running out of fuel yields `none` (every theorem below either
supplies enough fuel or takes termination as a hypothesis). -/

/-- The DFF-init exclusion test of one loop iteration of
`Reachability::visit_module`: the port to exclude, if the popped port's node
is a DFF whose init value is a constant with this very DFF as its only
consumer.  On a malformed DFF (missing `init` input) the source would panic
building `DFFInputs`; such nodes exclude nothing here. -/
def reachExclude (m : Module) (p : Port) : Option Port :=
  match m.dffInitPort p.node with
  | some init =>
    if m.isConst init && (m.outgoingNodes init).all (fun n => n == p.node) then
      some init
    else none
  | none => none

/-- `module[init].skip = true; module[init.node].skip = true` — the
exclusion's dead-marking of the DFF-init constant. -/
def reachKill (m : Module) (q : Port) : Module :=
  (m.setOutSkip q true).setNodeSkip q.node true

/-- `module[port].skip = false; module[port.node].skip = false;
module.skip = false` — the live-marking of the popped port. -/
def reachMark (m : Module) (p : Port) : Module :=
  ((m.setOutSkip p false).setNodeSkip p.node false).setModSkip false

/-- The processing tail of one loop iteration: apply the DFF-init exclusion
(mark the init constant dead), mark the popped port, its node and the module
live, and push the (possibly filtered) incoming ports.  Returns the updated
module and worklist. -/
def reachProcess (m : Module) (p : Port) (rest : List Port) :
    Module × List Port :=
  let excl := reachExclude m p
  let m1 :=
    match excl with
    | some init => reachKill m init
    | none => m
  let m2 := reachMark m1 p
  let pushes :=
    match excl with
    | some init => (m2.incoming p.node).filter (fun q => q ≠ init)
    | none => m2.incoming p.node
  (m2, pushes.reverse ++ rest)

/-- One visit loop of `Reachability::visit_module`.  Returns the updated
module and the target-module ids pushed onto the netlist queue (in push
order).  Mirrors `reachability.rs` lines 38–86 arm by arm. -/
def reachGo : Nat → Module → List Port → List Nat → Option (Module × List Nat)
  | _, m, [], sched => some (m, sched)
  | 0, _, _ :: _, _ => none
  | fuel + 1, m, p :: rest, sched =>
    -- `if !node_out.skip || node_out.ty.width() == 0 { continue; }`
    if !(m.outSkip p) || m.widthAt p == 0 then
      reachGo fuel m rest sched
    else
      -- `if let Some(mod_inst) = module[port.node].mod_inst() { ... }`
      match m.kindAt p.node with
      | some (.modInst mid) =>
        if !(m.hasPorts p.node) then reachGo fuel m rest sched
        else
          let s := reachProcess m p rest
          reachGo fuel s.1 s.2 (sched ++ [mid])
      | _ =>
        let s := reachProcess m p rest
        reachGo fuel s.1 s.2 sched

/-- `Reachability::visit_module`: seed the worklist from the designated
outputs and run the loop. -/
def Reachability.visitModule (fuel : Nat) (m : Module) : Option (Module × List Nat) :=
  reachGo fuel m m.modOutputs []

/-- The netlist container (`fhdl_netlist/src/netlist.rs`): all modules plus
the designated top module. -/
structure NetList where
  modules : List Module
  top : Option Nat
  deriving DecidableEq, Repr

/-- The module queue of `Reachability::run`: pop front, skip handled ids,
visit, append the newly scheduled target modules. -/
def reachRunGo : Nat → NetList → List Nat → List Nat → Option NetList
  | _, nl, [], _ => some nl
  | 0, _, _ :: _, _ => none
  | fuel + 1, nl, mid :: rest, handled =>
    if handled.contains mid then reachRunGo fuel nl rest handled
    else
      match nl.modules.get? mid with
      | none => none
      | some m =>
        match Reachability.visitModule fuel m with
        | none => none
        | some (m', sched) =>
          reachRunGo fuel { nl with modules := nl.modules.set mid m' }
            (rest ++ sched) (mid :: handled)

/-- `Reachability::run`: seed the module queue with the top module. -/
def Reachability.run (fuel : Nat) (nl : NetList) : Option NetList :=
  match nl.top with
  | none => some nl
  | some top => reachRunGo fuel nl [top] []

/-! ## Transform (`fhdl_netlist/src/visitor/transform.rs`)

The relevant per-kind rewrite arms of `Transform::transform` are embedded as
individual functions, each faithful to its `match` arm; the rewrite helpers
they use (`Module::replace`, `reconnect_all_outgoing`) live in the missing
`netlist/module.rs` and are modelled from the spec's construction-API
contract (§6). -/

/-- `InlineMod` from `fhdl_netlist`'s config (`All` / `Auto` / `None`). -/
inductive InlineMod
  | all
  | auto
  | noneOf
  deriving DecidableEq, Repr

/-- The netlist configuration consulted by `Transform`. -/
structure NetListCfg where
  inlineMod : InlineMod
  maxInlines : Option Nat
  noEliminateConst : Bool
  deriving DecidableEq, Repr

/-- `const NODES_LIMIT_TO_INLINE: usize = 10` (`transform.rs` line 21). -/
def NODES_LIMIT_TO_INLINE : Nat := 10

/-- `ConstArgs { ty, value, sym }` (with the type collapsed to its width). -/
structure ConstArgs where
  width : Nat
  value : Nat
  sym : Option Nat
  deriving DecidableEq, Repr

/-- The constant value-numbering table of one `Transform` run,
`FxHashMap<(ModuleId, ConstVal), Port>`, restricted to the module being
visited and modelled as an explicit association list (spec §9).  The key is
the `ConstVal`'s hash/equality view: `(width, masked value)`. -/
abbrev ConsMap := List ((Nat × Nat) × Port)

/-- Look up a constant in the value-numbering table. -/
def consLookup (cons : ConsMap) (key : Nat × Nat) : Option Port :=
  ((cons.filter (fun e => e.1 == key)).head?).map (·.2)

namespace Module

/-- Modelled from the spec: `reconnect_all_outgoing` — "reconnect all current
consumers of a `Port` to a different source `Port`" (§6), with one new source
per output index of the reconnected node, "preserving edge insertion order"
(§4.1).  A consumer of output `i` of node `n` is rewired to `news[i]`. -/
def reconnectAllOutgoing (m : Module) (n : Nat) (news : List Port) : Module :=
  { m with
    edges := m.edges.map (fun e =>
      if e.1.node = n then (((news.get? e.1.port).getD e.1), e.2) else e) }

/-- Modelled from the spec: `Module::replace::<_, Const>` — "replace a node
in place with a different kind while preserving all of its existing outgoing
edges" (§6).  The node becomes a `Const` with the given args (a fresh node
output, presumptively dead); its old incoming edges are severed, outgoing
edges are untouched. -/
def replaceWithConstNode (m : Module) (n : Nat) (args : ConstArgs) : Module :=
  { m with
    nodes := listModify
      (fun _ => { kind := .const args.value
                  outputs := [{ width := args.width, sym := args.sym, skip := true }]
                  skip := true }) n m.nodes
    edges := m.edges.filter (fun e => e.2.node ≠ n) }

/-- Modelled from the spec: `Module::replace::<_, MultiConst>`, as
`replaceWithConstNode` but with one output per argument. -/
def replaceWithMultiConstNode (m : Module) (n : Nat) (args : List ConstArgs) :
    Module :=
  { m with
    nodes := listModify
      (fun _ => { kind := .multiConst (args.map (·.value))
                  outputs := args.map
                    (fun a => { width := a.width, sym := a.sym, skip := true })
                  skip := true }) n m.nodes
    edges := m.edges.filter (fun e => e.2.node ≠ n) }

end Module

/-- `Transform::eliminate_const` (`transform.rs` lines 431–445): local
constant value-numbering.  Skipped when disabled by config or when the
constant is a designated module output; otherwise either reconnects all
consumers to an earlier equal constant or records this one. -/
def eliminateConst (cfg : NetListCfg) (cons : ConsMap) (m : Module)
    (val : ConstVal) (p : Port) : ConsMap × Module :=
  if cfg.noEliminateConst || m.isModOutput p then (cons, m)
  else
    match consLookup cons (val.width, val.value) with
    | some newCons => (cons, m.reconnectAllOutgoing p.node [newCons])
    | none => (cons ++ [((val.width, val.value), p)], m)

/-- `Transform::replace_with_const` (`transform.rs` lines 400–408): replace
the node by a `Const`, then re-run the rewrite on the new node — which for a
`Const` is exactly `eliminate_const`. -/
def replaceWithConst (cfg : NetListCfg) (cons : ConsMap) (m : Module)
    (n : Nat) (args : ConstArgs) : ConsMap × Module :=
  let m1 := m.replaceWithConstNode n args
  eliminateConst cfg cons m1 (ConstVal.new args.value args.width) ⟨n, 0⟩

/-- `Transform::eliminate_multi_const`: value-number every output of a
`MultiConst` in output order. -/
def eliminateMultiConst (cfg : NetListCfg) (cons : ConsMap) (m : Module)
    (n : Nat) (args : List ConstArgs) : ConsMap × Module :=
  (args.enum.foldl
    (fun acc a =>
      eliminateConst cfg acc.1 acc.2 (ConstVal.new a.2.value a.2.width)
        ⟨n, a.1⟩)
    (cons, m))

/-- `Transform::replace_with_multi_const`: replace the node by a
`MultiConst`, then re-run the rewrite on it — `eliminate_multi_const`. -/
def replaceWithMultiConst (cfg : NetListCfg) (cons : ConsMap) (m : Module)
    (n : Nat) (args : List ConstArgs) : ConsMap × Module :=
  let m1 := m.replaceWithMultiConstNode n args
  if cfg.noEliminateConst then (cons, m1)
  else eliminateMultiConst cfg cons m1 n args

/-- The `NodeKind::Merger` arm of `Transform::transform` (`transform.rs`
lines 257–302): fold the node to a `Const` when every input is constant.
The accumulator starts at `ConstVal::new(0, 0)` and each input — taken from
the incoming-edge list in declared order, `rev` never consulted — is
appended with `ConstVal::shift`.  `none` models the panic of `shift`'s
width assert (total width above 128). -/
def transformMergerArm (cfg : NetListCfg) (cons : ConsMap) (m : Module)
    (n : Nat) : Option (ConsMap × Module) :=
  let vals : Option (List ConstVal) :=
    (m.incoming n).mapM (fun p => m.to_const p)
  match vals with
  | none => some (cons, m)
  | some cvs =>
    match cvs.foldlM ConstVal.shift (ConstVal.new 0 0) with
    | none => none
    | some cv =>
      let out := ((m.node? n).bind (fun nd => nd.outputs.get? 0)).getD
        { width := 0, sym := none, skip := true }
      some (replaceWithConst cfg cons m n
        { width := out.width, value := cv.value, sym := out.sym })

/-- The `NodeKind::ModInst` arm of `Transform::transform` (`transform.rs`
lines 140–182): replace the whole instantiation by a `MultiConst` when every
target output is constant, else decide inlining per the configured policy.
Returns the `inline` decision together with the updated state.  Under
`Auto` the source tests the *caller* module's port and node counts:
`orig_module.inline || module.mod_in_count() == 0 ||
module.mod_out_count() == 0 || module.node_count() <= NODES_LIMIT_TO_INLINE
|| module.node_has_const_inputs(node_id)`. -/
def transformModInstArm (cfg : NetListCfg) (cons : ConsMap) (m : Module)
    (n : Nat) (orig : Module) : Bool × ConsMap × Module :=
  if orig.hasConstOutputs then
    let args := orig.modOutputs.map (fun p =>
      { width := orig.widthAt p
        value := ((orig.to_const p).map (·.value)).getD 0
        sym := ((orig.output? p).bind (·.sym)) : ConstArgs })
    let r := replaceWithMultiConst cfg cons m n args
    (false, r)
  else
    match cfg.inlineMod with
    | .all => (true, cons, m)
    | .auto =>
      (orig.inline || m.modInCount == 0 || m.modOutCount == 0
        || m.nodeCount ≤ NODES_LIMIT_TO_INLINE || m.nodeHasConstInputs n,
       cons, m)
    | .noneOf => (false, cons, m)

/-- The `NodeKind::BinOp` arm of `Transform::transform` (`transform.rs`
lines 196–211): when both operands are constant, evaluate the operator with
`ConstVal::eval_bin_op` and replace the node by a `Const` of that value
(`none` models an evaluation panic). -/
def transformBinOpArm (cfg : NetListCfg) (cons : ConsMap) (m : Module)
    (n : Nat) (op : BinOp) : Option (ConsMap × Module) :=
  match (m.incoming n).get? 0, (m.incoming n).get? 1 with
  | some lhs, some rhs =>
    match m.to_const lhs, m.to_const rhs with
    | some left, some right =>
      match left.eval_bin_op right op with
      | none => none
      | some cv =>
        let out := ((m.node? n).bind (fun nd => nd.outputs.get? 0)).getD
          { width := 0, sym := none, skip := true }
        some (replaceWithConst cfg cons m n
          { width := out.width, value := cv.value, sym := out.sym })
    | _, _ => some (cons, m)
  | _, _ => some (cons, m)

/-! ## `NetList::inline_mod` (`fhdl_netlist/src/netlist.rs` lines 74–89) -/

namespace Module

/-- Modelled from the spec: `Module::inline_mod` (in the missing
`netlist/module.rs`) — "splices a callee's entire node list into the caller,
remapping the callee's own input ports to the edges that fed the
instantiation node and remapping the callee's declared outputs to identity
nodes standing in the instantiation node's former position, then deletes the
instantiation node" (§4.2).  Deletion of the instantiation node is modelled
by disconnecting it and replacing it with a dead `Pass` placeholder; the
returned node id is the first spliced node, for the caller's cursor. -/
def inlineModInner (caller : Module) (instId : Nat) (callee : Module) :
    Option Nat × Module :=
  let ofs := caller.nodes.length
  let instIn := caller.incoming instId
  let shiftPort : Port → Port := fun p => ⟨p.node + ofs, p.port⟩
  -- A callee port that is the i-th declared callee input becomes the
  -- producer that fed the i-th input of the instantiation.
  let remap : Port → Port := fun p =>
    match callee.modInputs.indexOf? p with
    | some i => (instIn.get? i).getD (shiftPort p)
    | none => shiftPort p
  let spliced := caller.nodes ++ callee.nodes
  let passBase := spliced.length
  let passNodes := callee.modOutputs.map (fun p =>
    ({ kind := .pass
       outputs := [{ width := callee.widthAt p, sym := none, skip := true }]
       skip := true } : Node))
  let innerEdges := callee.edges.map (fun e => (remap e.1, shiftPort e.2))
  let passEdges := callee.modOutputs.enum.map (fun pj =>
    (remap pj.2, (⟨passBase + pj.1, 0⟩ : Port)))
  let callerEdges := caller.edges.filterMap (fun e =>
    if e.2.node = instId then none
    else if e.1.node = instId then some ((⟨passBase + e.1.port, 0⟩ : Port), e.2)
    else some e)
  (some ofs,
   { caller with
     nodes := listModify
       (fun _ => { kind := .pass, outputs := [], skip := true }) instId
       (spliced ++ passNodes)
     edges := callerEdges ++ innerEdges ++ passEdges })

end Module

/-- `NetList::inline_mod` (`netlist.rs` lines 74–89): a no-op (`None`,
module untouched) when the node is not a `ModInst` or when the instantiation
targets its own containing module (the self-recursion guard); otherwise the
callee is spliced in.  `targetModId` is the id of the containing module
(`target_mod.id`). -/
def NetList.inlineMod (nl : NetList) (targetModId : Nat) (m : Module)
    (instId : Nat) : Option Nat × Module :=
  match m.kindAt instId with
  | some (.modInst mid) =>
    if mid = targetModId then (none, m)
    else
      match nl.modules.get? mid with
      | some callee => m.inlineModInner instId callee
      | none => (none, m)
  | _ => (none, m)

/-! ## Composite values and bit-vector flattening
(`ferrum_compiler/src/generator/bitvec.rs`)

`to_bitvec` flattens a composite item into one bit-vector by building a
`Merger` over the flattened components in declared order; `from_bitvec`
rebuilds an item of a given shape by building a `Splitter` with one output
per component, in declared order, with no explicit start offsets.  The
`Merger`/`Splitter` node types of `ferrum_netlist` are not under `src/`;
their value semantics are modelled from the spec — the concatenation places
the first component in the most significant bits (`ConstVal::shift`
semantics), and the splitter extracts the matching contiguous ranges
(§4.3, §3: the conversion is a "structural, lossless bijection").  The
functions below are the value-level denotations of those graph
constructions. -/

/-- `SignalTy` (`sig_ty.rs`): a primitive width, an `N`-element array of one
shape, or a group (struct/tuple) of shapes. -/
inductive SignalTy
  | prim (w : Nat)
  | array (n : Nat) (t : SignalTy)
  | group (ts : List SignalTy)

/-- A value of a composite shape (`ItemId`: a single node's value or a
group of item values).  A primitive value carries its width, like the node
output it denotes. -/
inductive Item
  | prim (w v : Nat)
  | group (items : List Item)

mutual

/-- Total bit width of a shape: primitives contribute their width, composite
shapes the sum of their components (spec §3). -/
def SignalTy.width : SignalTy → Nat
  | .prim w => w
  | .array n t => n * t.width
  | .group ts => SignalTy.widthList ts

/-- Sum of the widths of a list of shapes. -/
def SignalTy.widthList : List SignalTy → Nat
  | [] => 0
  | t :: ts => t.width + SignalTy.widthList ts

end

mutual

/-- `item_width`: total bit width of an item. -/
def Item.width : Item → Nat
  | .prim w _ => w
  | .group items => Item.widthList items

/-- Sum of the widths of a list of items. -/
def Item.widthList : List Item → Nat
  | [] => 0
  | i :: is => i.width + Item.widthList is

end

mutual

/-- The flat bit-vector denoted by `to_bitvec`: each primitive contributes
its masked value, a group concatenates its members in declared order with
the first member in the most significant bits. -/
def Item.toBits : Item → Nat
  | .prim w v => v % 2 ^ w
  | .group items => Item.toBitsList items

/-- Concatenation of a list of items, first item most significant. -/
def Item.toBitsList : List Item → Nat
  | [] => 0
  | i :: is => i.toBits * 2 ^ Item.widthList is + Item.toBitsList is

end

mutual

/-- The item denoted by `from_bitvec` at a shape: primitives take the low
`w` bits, an array splits into `n` equal slices, a group splits into the
declared component widths — in each case the first component is read from
the most significant end, mirroring `Item.toBits`. -/
def SignalTy.fromBits : SignalTy → Nat → Item
  | .prim w, bits => .prim w (bits % 2 ^ w)
  | .array n t, bits => .group (SignalTy.fromBitsN n t bits)
  | .group ts, bits => .group (SignalTy.fromBitsList ts bits)

/-- Split a bit-vector into the components of a list of shapes. -/
def SignalTy.fromBitsList : List SignalTy → Nat → List Item
  | [], _ => []
  | t :: ts, bits =>
    t.fromBits (bits / 2 ^ SignalTy.widthList ts) ::
      SignalTy.fromBitsList ts (bits % 2 ^ SignalTy.widthList ts)

/-- Split a bit-vector into `n` equal slices of one shape. -/
def SignalTy.fromBitsN : Nat → SignalTy → Nat → List Item
  | 0, _, _ => []
  | n + 1, t, bits =>
    t.fromBits (bits / 2 ^ (n * t.width)) ::
      SignalTy.fromBitsN n t (bits % 2 ^ (n * t.width))

end

mutual

/-- Well-typedness of an item at a shape: widths line up and primitive
values fit their declared width. -/
def Item.wt : SignalTy → Item → Bool
  | .prim w, .prim w' v => w == w' && decide (v < 2 ^ w)
  | .array n t, .group items => (items.length == n) && Item.wtAll t items
  | .group ts, .group items => Item.wtZip ts items
  | _, _ => false

/-- Every item of the list is well-typed at the one shape. -/
def Item.wtAll : SignalTy → List Item → Bool
  | _, [] => true
  | t, i :: is => Item.wt t i && Item.wtAll t is

/-- The items are well-typed at the shapes, pointwise. -/
def Item.wtZip : List SignalTy → List Item → Bool
  | [], [] => true
  | t :: ts, i :: is => Item.wt t i && Item.wtZip ts is
  | _, _ => false

end

/-! ## Claim-side definitions and concrete example modules -/

/-- MSB-first concatenation of `(width, raw value)` pairs onto an
accumulator: the arithmetic reading of repeated `ConstVal::shift`. -/
def concatAcc (acc : Nat) (l : List (Nat × Nat)) : Nat :=
  l.foldl (fun a wv => a * 2 ^ wv.1 + wv.2 % 2 ^ wv.1) acc

/-- MSB-first concatenation of `(width, raw value)` pairs. -/
def concatMSB (l : List (Nat × Nat)) : Nat := concatAcc 0 l

/-- The claim's reading of the Merger fold (C5): concatenation "in the order
the node declares: declared input order when its rev flag is false and
reversed order when rev is true".  Stated from the claim's words, to be
compared with `transformMergerArm`. -/
def mergerClaimValue (m : Module) (n : Nat) : Nat :=
  let pairs := (m.incoming n).map (fun p =>
    (m.widthAt p, ((m.to_const p).map (·.val)).getD 0))
  match m.kindAt n with
  | some (.merger true) => concatMSB pairs.reverse
  | _ => concatMSB pairs

/-- The claim's reading of the Auto inlining decision (C4): "the target
module is hint-marked inline, or the caller module has no ports at all, or
the target module's node count is below the fixed small threshold, or the
instantiation's inputs are all already constant".  Stated from the claim's
words, to be compared with `transformModInstArm`. -/
def autoInlineClaim (caller target : Module) (n : Nat) : Bool :=
  target.inline || (caller.modInCount == 0 && caller.modOutCount == 0)
    || decide (target.nodeCount < NODES_LIMIT_TO_INLINE)
    || caller.nodeHasConstInputs n

/-- A default transform configuration for the concrete examples: `Auto`
policy, no budget, constant de-duplication enabled. -/
def exCfg : NetListCfg :=
  { inlineMod := .auto, maxInlines := none, noEliminateConst := false }

/-- A dead (presumptively-skipped) single wire output of width `w`. -/
def exOut (w : Nat) : NodeOutput := { width := w, sym := none, skip := true }

/-- C5 example: two width-1 constants `1` and `0` feeding a reversed
(`rev = true`) `Merger` of output width 2 that is a designated output. -/
def exM5 : Module :=
  { nodes :=
      [ { kind := .const 1, outputs := [exOut 1], skip := true }
      , { kind := .const 0, outputs := [exOut 1], skip := true }
      , { kind := .merger true, outputs := [exOut 2], skip := true } ]
    edges := [(⟨0, 0⟩, ⟨2, 0⟩), (⟨1, 0⟩, ⟨2, 1⟩)]
    modInputs := []
    modOutputs := [⟨2, 0⟩]
    inline := false
    skip := true }

/-- C4 example target: twelve nodes (above the inline threshold), one input,
one non-constant designated output, not hint-marked inline. -/
def exTarget : Module :=
  { nodes :=
      ({ kind := .input, outputs := [exOut 1], skip := true } : Node) ::
        List.replicate 11 ({ kind := .pass, outputs := [exOut 1], skip := true } : Node)
    edges := []
    modInputs := [⟨0, 0⟩]
    modOutputs := [⟨11, 0⟩]
    inline := false
    skip := true }

/-- C4 example caller: one module input (so it does have ports), no module
outputs, an `Input` node feeding a `ModInst` of `exTarget` (module id 1). -/
def exCaller : Module :=
  { nodes :=
      [ { kind := .input, outputs := [exOut 1], skip := true }
      , { kind := .modInst 1, outputs := [exOut 1], skip := true } ]
    edges := [(⟨0, 0⟩, ⟨1, 0⟩)]
    modInputs := [⟨0, 0⟩]
    modOutputs := []
    inline := false
    skip := true }

/-- C9 example: a module whose node 0 is a `ModInst` targeting module id 0 —
its own containing module (self-recursion). -/
def exM9 : Module :=
  { nodes := [{ kind := .modInst 0, outputs := [exOut 1], skip := true }]
    edges := []
    modInputs := []
    modOutputs := [⟨0, 0⟩]
    inline := false
    skip := true }

/-- C9 example netlist: `exM9` is module 0 and top. -/
def exNl9 : NetList := { modules := [exM9], top := some 0 }

/-- Erase an output's `skip` mark (structural view of a `NodeOutput`). -/
def stripOut (o : NodeOutput) : NodeOutput := { o with skip := true }

/-- Erase a node's `skip` marks (structural view of a `Node`). -/
def stripNode (nd : Node) : Node :=
  { nd with skip := true, outputs := nd.outputs.map stripOut }

/-- The structural content of a module: everything except its `skip`
marks.  Reachability only flips `skip` marks, so it preserves `strip`. -/
def Module.strip (m : Module) : Module :=
  { m with skip := true, nodes := m.nodes.map stripNode }

/-- Node `n` produces a constant that some DFF uses as its init value while
being that constant's only consumer — exactly the situation in which
`Reachability`'s DFF-init exclusion can mark node `n` dead. -/
def nodeExcludable (m : Module) (n : Nat) : Bool :=
  (List.range m.nodes.length).any (fun d =>
    match m.dffInitPort d with
    | some q =>
      q.node == n && m.isConst q && (m.outgoingNodes q).all (fun c => c == d)
    | none => false)

/-- Every live output port sits on a live node, except possibly on nodes the
DFF-init exclusion can kill.  This holds for the presumptively-dead initial
flag state (vacuously) and is preserved by the reachability walk. -/
def LiveCoherent (m : Module) : Prop :=
  ∀ p : Port, nodeExcludable m p.node = false → m.outSkip p = false →
    m.nodeSkip p.node = false

/-- C2/C7 scenario: node 0 is a width-1 `Const` that is both the first
designated output and the init value of the DFF at node 2 (its only
consumer); node 1 is the clock input; the DFF's data input is its own
output (the sanctioned feedback cycle).  Designated outputs: the constant,
then the DFF. -/
def exM2 : Module :=
  { nodes :=
      [ { kind := .const 0, outputs := [exOut 1], skip := true }
      , { kind := .input, outputs := [exOut 1], skip := true }
      , { kind := .dff false false, outputs := [exOut 1], skip := true } ]
    edges := [(⟨1, 0⟩, ⟨2, 0⟩), (⟨0, 0⟩, ⟨2, 1⟩), (⟨2, 0⟩, ⟨2, 2⟩)]
    modInputs := [⟨1, 0⟩]
    modOutputs := [⟨0, 0⟩, ⟨2, 0⟩]
    inline := false
    skip := true }

/-- C2/C7 scenario netlist: `exM2` is module 0 and top. -/
def exNl2 : NetList := { modules := [exM2], top := some 0 }

/-- A live wire output of width `w` (for already-processed modules). -/
def exLiveOut (w : Nat) : NodeOutput := { width := w, sym := none, skip := false }

/-- The `exM2` structure with every `skip` flag cleared: an
already-processed module all of whose designated outputs are live. -/
def exM7 : Module :=
  { nodes :=
      [ { kind := .const 0, outputs := [exLiveOut 1], skip := false }
      , { kind := .input, outputs := [exLiveOut 1], skip := false }
      , { kind := .dff false false, outputs := [exLiveOut 1], skip := false } ]
    edges := [(⟨1, 0⟩, ⟨2, 0⟩), (⟨0, 0⟩, ⟨2, 1⟩), (⟨2, 0⟩, ⟨2, 2⟩)]
    modInputs := [⟨1, 0⟩]
    modOutputs := [⟨0, 0⟩, ⟨2, 0⟩]
    inline := false
    skip := false }

/-- Netlist for the C7 witness: `exM7` is module 0 and top. -/
def exNl7 : NetList := { modules := [exM7], top := some 0 }

/-- The result of one Reachability visit of `exM2`: everything live except
the excluded DFF-init constant (node 0), which is also the first designated
output. -/
def exM2res : Module :=
  { nodes :=
      [ { kind := .const 0, outputs := [exOut 1], skip := true }
      , { kind := .input, outputs := [exLiveOut 1], skip := false }
      , { kind := .dff false false, outputs := [exLiveOut 1], skip := false } ]
    edges := [(⟨1, 0⟩, ⟨2, 0⟩), (⟨0, 0⟩, ⟨2, 1⟩), (⟨2, 0⟩, ⟨2, 2⟩)]
    modInputs := [⟨1, 0⟩]
    modOutputs := [⟨0, 0⟩, ⟨2, 0⟩]
    inline := false
    skip := false }

/-! ## Theorems -/

/-- C1: the claim says `ConstVal::eval_bin_op` with `BinOp::Or` returns the
OR of equal-width operands (and that the Transform fold of such a `BinOp`
node produces that OR).  The source's `BinOp::Or => self & other` arm
evaluates logical or with bitwise AND instead: at width 1 with operands 1
and 0 it returns `1'd0`, where the spec's OR (as `impl BitOr` computes it)
is `1'd1`. -/
theorem C1_or_evaluated_as_and :
    ConstVal.eval_bin_op (ConstVal.new 1 1) (ConstVal.new 0 1) BinOp.or
      = some (ConstVal.new 0 1) ∧
    ConstVal.lorOp (ConstVal.new 1 1) (ConstVal.new 0 1)
      = some (ConstVal.new 1 1) ∧
    ConstVal.new 0 1 ≠ ConstVal.new 1 1 := by
  decide

/-- C3 counterexample: the claim says width-8 subtraction never fails
fatally (only true near-128-bit magnitudes could overflow the container).
But `impl Sub` uses `checked_sub` on the unsigned backing integer, which
fails on any underflow: already `8'd0 - 8'd1` panics. -/
theorem C3_width8_sub_underflows :
    ConstVal.subOp (ConstVal.new 0 8) (ConstVal.new 1 8) = none := by
  decide

/-- C3 (amended): for width-8 constants, addition and multiplication indeed
never fail fatally (their raw magnitudes are below 2^8, far from the 128-bit
container bound), but subtraction fails exactly when the minuend's masked
value is smaller than the subtrahend's — `u128` underflow, not 128-bit
overflow. -/
theorem C3_width8_add_mul_total_sub_underflow (a b : Nat) :
    (ConstVal.addOp (ConstVal.new a 8) (ConstVal.new b 8)).isSome = true ∧
    (ConstVal.mulOp (ConstVal.new a 8) (ConstVal.new b 8)).isSome = true ∧
    (ConstVal.subOp (ConstVal.new a 8) (ConstVal.new b 8) = none
      ↔ a % 2 ^ 8 < b % 2 ^ 8) := by
  have ha : a % 256 < 256 := Nat.mod_lt _ (by norm_num)
  have hb : b % 256 < 256 := Nat.mod_lt _ (by norm_num)
  have h28 : (2 : Nat) ^ 8 = 256 := by norm_num
  have hu : u128Size = 340282366920938463463374607431768211456 := by
    norm_num [u128Size]
  refine ⟨?_, ?_, ?_⟩
  · have hlt : a % 256 + b % 256 < u128Size := by omega
    simp [ConstVal.addOp, ConstVal.new, val_, binOpRes, op_width, h28, hlt]
  · have hlt : a % 256 * (b % 256) < u128Size := by
      have h1 : a % 256 * (b % 256) ≤ 255 * 255 :=
        Nat.mul_le_mul (by omega) (by omega)
      omega
    simp [ConstVal.mulOp, ConstVal.new, val_, binOpRes, op_width, h28, hlt]
  · simp only [ConstVal.subOp, ConstVal.new, val_, binOpRes, op_width, h28]
    constructor
    · intro h
      by_contra hlt
      simp only [not_lt] at hlt
      rw [if_pos hlt] at h
      simp at h
    · intro h
      rw [if_neg (by omega)]

/-- C6 counterexample: the claim says addition is defined for all widths
`W ≤ 128`.  At width 128 two maximal masked values overflow the `u128`
backing container and `checked_add` fails fatally. -/
theorem C6_width128_add_overflows :
    ConstVal.addOp (ConstVal.new (2 ^ 128 - 1) 128) (ConstVal.new (2 ^ 128 - 1) 128)
      = none := by
  decide

/-- C6 (amended): for every width `W ≤ 127` and all constants `a`, `b` of
width `W`, addition is defined and the result is the width-`W` constant
whose magnitude is `(a.val() + b.val()) mod 2^W`; at width 128 addition can
fail fatally on container overflow. -/
theorem C6_masked_add (W a b : Nat) (h : W ≤ 127) :
    ConstVal.addOp (ConstVal.new a W) (ConstVal.new b W)
      = some (ConstVal.new ((ConstVal.new a W).value + (ConstVal.new b W).value) W) ∧
    (ConstVal.addOp (ConstVal.new a W) (ConstVal.new b W)).map ConstVal.value
      = some (((ConstVal.new a W).value + (ConstVal.new b W).value) % 2 ^ W) := by
  have ha : a % 2 ^ W < 2 ^ W := Nat.mod_lt _ (Nat.pos_pow_of_pos _ (by norm_num))
  have hb : b % 2 ^ W < 2 ^ W := Nat.mod_lt _ (Nat.pos_pow_of_pos _ (by norm_num))
  have hW : (2 : Nat) ^ W ≤ 2 ^ 127 := Nat.pow_le_pow_right (by norm_num) h
  have hsum : a % 2 ^ W + b % 2 ^ W < u128Size := by
    have h1 : a % 2 ^ W + b % 2 ^ W < 2 ^ W + 2 ^ W := by omega
    have h2 : (2 : Nat) ^ W + 2 ^ W ≤ 2 ^ 127 + 2 ^ 127 := by omega
    have h3 : (2 : Nat) ^ 127 + 2 ^ 127 = u128Size := by norm_num [u128Size]
    omega
  have hVal : (ConstVal.new a W).value = a % 2 ^ W := by
    simp only [ConstVal.new, ConstVal.value, val_]
    exact Nat.mod_mod_of_dvd a dvd_rfl
  have hValb : (ConstVal.new b W).value = b % 2 ^ W := by
    simp only [ConstVal.new, ConstVal.value, val_]
    exact Nat.mod_mod_of_dvd b dvd_rfl
  have hAdd : ConstVal.addOp (ConstVal.new a W) (ConstVal.new b W)
      = some (ConstVal.new (a % 2 ^ W + b % 2 ^ W) W) := by
    simp [ConstVal.addOp, ConstVal.new, val_, binOpRes, op_width, hsum,
      Nat.le_trans h (by norm_num : (127 : Nat) ≤ 128)]
  rw [hAdd, hVal, hValb]
  refine ⟨rfl, ?_⟩
  simp only [Option.map, ConstVal.new, ConstVal.value, val_]
  exact congrArg some (Nat.mod_mod_of_dvd _ dvd_rfl)

/-- C10: comparing two `ConstVal`s of different widths never returns a
result: `PartialEq::eq`, `Ord::cmp` and the `<`/`<=` operators derived from
them all hit `op_width`'s equal-width assertion and fail fatally, even when
the two masked magnitudes agree.  Equality and ordering are defined only
under the equal-width precondition. -/
theorem C10_mixed_width_compare_panics (a b : ConstVal)
    (h : a.width ≠ b.width) :
    ConstVal.eqOp a b = none ∧ ConstVal.cmpOp a b = none ∧
    ConstVal.ltOp a b = none ∧ ConstVal.leOp a b = none := by
  have hw : op_width a b = none := by simp [op_width, h]
  refine ⟨?_, ?_, ?_, ?_⟩ <;>
    simp [ConstVal.eqOp, ConstVal.cmpOp, ConstVal.ltOp, ConstVal.leOp, hw]

/-- C6 witness: width 8, operands 200 and 100. -/
theorem C6_masked_add_witness :
    (8 : Nat) ≤ 127 ∧
    (ConstVal.addOp (ConstVal.new 200 8) (ConstVal.new 100 8)
        = some (ConstVal.new
          ((ConstVal.new 200 8).value + (ConstVal.new 100 8).value) 8) ∧
      (ConstVal.addOp (ConstVal.new 200 8) (ConstVal.new 100 8)).map ConstVal.value
        = some (((ConstVal.new 200 8).value + (ConstVal.new 100 8).value) % 2 ^ 8)) :=
  ⟨by decide, C6_masked_add 8 200 100 (by decide)⟩

/-- C10 witness: widths 1 and 2 with equal masked magnitude 1. -/
theorem C10_mixed_width_compare_panics_witness :
    ((ConstVal.new 1 1).width ≠ (ConstVal.new 1 2).width ∧
      (ConstVal.new 1 1).value = (ConstVal.new 1 2).value) ∧
    (ConstVal.eqOp (ConstVal.new 1 1) (ConstVal.new 1 2) = none ∧
      ConstVal.cmpOp (ConstVal.new 1 1) (ConstVal.new 1 2) = none ∧
      ConstVal.ltOp (ConstVal.new 1 1) (ConstVal.new 1 2) = none ∧
      ConstVal.leOp (ConstVal.new 1 1) (ConstVal.new 1 2) = none) :=
  ⟨⟨by decide, by decide⟩,
    C10_mixed_width_compare_panics (ConstVal.new 1 1) (ConstVal.new 1 2)
      (by decide)⟩

/-! ### Reachability (C2, C7) -/

/-- C2 counterexample: in `exM2` the designated output `(0,0)` is a
constant of nonzero width that also serves as the DFF's init value and has
the DFF as its only consumer.  The walk first marks it live (it is a
designated output), then the DFF-init exclusion marks it dead again, and it
is never revisited: after the pass the designated output's node and port
carry `skip = true`. -/
theorem C2_dff_init_output_left_dead :
    (exM2.modOutputs.contains (⟨0, 0⟩ : Port) = true ∧ exM2.widthAt ⟨0, 0⟩ ≠ 0) ∧
    (Reachability.visitModule 10 exM2).map (fun r => r.1.nodeSkip 0)
      = some true ∧
    (Reachability.visitModule 10 exM2).map (fun r => r.1.outSkip ⟨0, 0⟩)
      = some true := by
  refine ⟨⟨by decide, by decide⟩, by decide, by decide⟩

/-- C7 counterexample: running Reachability a second time on the already
processed `exNl2` changes flags — the dead-marked designated-output
constant of `exM2` is re-seeded from the output list, found dead, and
marked live, so the pass is not idempotent. -/
theorem C7_reachability_not_idempotent :
    (Reachability.run 20 exNl2).map (fun nl1 =>
        (nl1.modules.get? 0).map (fun m => m.nodeSkip 0)) = some (some true) ∧
    ((Reachability.run 20 exNl2).bind (fun nl1 => Reachability.run 20 nl1)).map
        (fun nl2 => (nl2.modules.get? 0).map (fun m => m.nodeSkip 0))
      = some (some false) ∧
    ((Reachability.run 20 exNl2).bind (fun nl1 =>
        (Reachability.run 20 nl1).map (fun nl2 => decide (nl2 = nl1))))
      = some false := by
  refine ⟨by decide, by decide, by decide⟩

/-- When every seeded port is already live (or zero-width), the visit loop
discards the whole worklist without touching the module or scheduling any
submodule. -/
theorem reachGo_all_skipped (m : Module) :
    ∀ (ports : List Port) (fuel : Nat) (sched : List Nat),
    (∀ p ∈ ports, m.outSkip p = false ∨ m.widthAt p = 0) →
    ports.length ≤ fuel →
    reachGo fuel m ports sched = some (m, sched) := by
  intro ports
  induction ports with
  | nil => intro fuel sched _ _; cases fuel <;> rfl
  | cons p rest ih =>
    intro fuel sched h hlen
    cases fuel with
    | zero => simp at hlen
    | succ f =>
      have hg : (!(m.outSkip p) || m.widthAt p == 0) = true := by
        rcases h p (by simp) with h1 | h1
        · simp [h1]
        · simp [h1]
      show reachGo (f + 1) m (p :: rest) sched = some (m, sched)
      simp only [reachGo, hg, if_true]
      exact ih f sched (fun q hq => h q (by simp [hq])) (by simpa using hlen)

/-- Setting a list element to the value it already holds is the identity. -/
theorem list_set_self : ∀ (l : List α) (n : Nat) (a : α),
    l.get? n = some a → l.set n a = l
  | [], _, _, h => by cases h
  | x :: xs, 0, a, h => by
    simp only [List.get?] at h
    cases h
    rfl
  | x :: xs, n + 1, a, h => by
    simp only [List.get?] at h
    simp [List.set, list_set_self xs n a h]

/-- C7 (amended): re-running Reachability on a netlist whose top module's
designated outputs are each already live or zero-width — which is how the
first run leaves any module without a dead designated output, the DFF-init
situation of the counterexample being the only way to get one — changes no
flag of any module, node or node output (the run returns the netlist
unchanged). -/
theorem C7_rerun_fixpoint (nl : NetList) (t : Nat) (m : Module) (fuel : Nat)
    (htop : nl.top = some t) (hm : nl.modules.get? t = some m)
    (hlive : ∀ p ∈ m.modOutputs, m.outSkip p = false ∨ m.widthAt p = 0)
    (hfuel : m.modOutputs.length < fuel) :
    Reachability.run fuel nl = some nl := by
  unfold Reachability.run
  rw [htop]
  cases fuel with
  | zero => omega
  | succ f =>
    show reachRunGo (f + 1) nl [t] [] = some nl
    have hvisit : Reachability.visitModule f m = some (m, []) := by
      unfold Reachability.visitModule
      exact reachGo_all_skipped m m.modOutputs f [] hlive (by omega)
    simp only [reachRunGo, List.contains, List.elem, if_false, hm, hvisit,
      Bool.false_eq_true]
    rw [list_set_self nl.modules t m hm]
    show reachRunGo f { nl with modules := nl.modules } [] [t] = some nl
    cases f <;> rfl

/-- C7 witness: after one run on `exNl2` and a manual revival of the dead
output, a netlist satisfying the hypotheses: here, simply a netlist whose
top module has all outputs live already — the fully live `exM2` variant. -/
theorem C7_rerun_fixpoint_witness :
    ((exNl7.top = some 0) ∧ (exNl7.modules.get? 0 = some exM7) ∧
      (∀ p ∈ exM7.modOutputs,
        exM7.outSkip p = false ∨ exM7.widthAt p = 0) ∧
      exM7.modOutputs.length < 20) ∧
    Reachability.run 20 exNl7 = some exNl7 :=
  ⟨⟨rfl, rfl, by decide, by decide⟩,
    C7_rerun_fixpoint exNl7 0 exM7 20 rfl rfl (by decide) (by decide)⟩

/-! ### Structural stability of the reachability walk (toward C2) -/

/-- `listModify` only touches the addressed index. -/
theorem listModify_get? (f : α → α) (i j : Nat) (l : List α) :
    (listModify f i l).get? j
      = if j = i then (l.get? j).map f else l.get? j := by
  induction l generalizing i j with
  | nil => cases j <;> simp [listModify]
  | cons a as ih =>
    cases i with
    | zero => cases j <;> simp [listModify]
    | succ i' =>
      cases j with
      | zero => simp [listModify]
      | succ j' => simpa [listModify, Nat.succ_inj] using ih i' j'

/-- `listModify` preserves length. -/
theorem listModify_length (f : α → α) (i : Nat) (l : List α) :
    (listModify f i l).length = l.length := by
  induction l generalizing i with
  | nil => cases i <;> rfl
  | cons a as ih =>
    cases i with
    | zero => rfl
    | succ i' => simpa [listModify] using ih i'


/-- `listModify` with a function the projection ignores is invisible to a
`map` of that projection. -/
theorem listModify_map (f : α → α) (g : α → β) (i : Nat) (l : List α)
    (h : ∀ a, g (f a) = g a) :
    (listModify f i l).map g = l.map g := by
  induction l generalizing i with
  | nil => cases i <;> rfl
  | cons a as ih =>
    cases i with
    | zero => simp [listModify, h a]
    | succ i' => simp [listModify, ih i']

/-- `any` over a list respects pointwise-equal predicates. -/
theorem list_any_congr (l : List α) (f g : α → Bool)
    (h : ∀ a ∈ l, f a = g a) : l.any f = l.any g := by
  induction l with
  | nil => rfl
  | cons a as ih =>
    simp only [List.any_cons, h a (by simp)]
    rw [ih (fun x hx => h x (by simp [hx]))]

/-- Flipping one output's `skip` mark does not change the structure. -/
theorem strip_setOutSkip (m : Module) (p : Port) (b : Bool) :
    (m.setOutSkip p b).strip = m.strip := by
  have hpoint : ∀ nd : Node,
      stripNode { nd with
        outputs := listModify (fun o => { o with skip := b }) p.port nd.outputs }
        = stripNode nd := by
    intro nd
    unfold stripNode
    dsimp only
    rw [listModify_map (fun o => { o with skip := b }) stripOut p.port
      nd.outputs (fun o => rfl)]
  have hnodes : (listModify
      (fun nd => { nd with
        outputs := listModify (fun o => { o with skip := b }) p.port nd.outputs })
      p.node m.nodes).map stripNode = m.nodes.map stripNode :=
    listModify_map _ _ _ _ hpoint
  simp [Module.setOutSkip, Module.strip, hnodes]

/-- Flipping one node's `skip` mark does not change the structure. -/
theorem strip_setNodeSkip (m : Module) (n : Nat) (b : Bool) :
    (m.setNodeSkip n b).strip = m.strip := by
  have hnodes : (listModify (fun nd => { nd with skip := b }) n m.nodes).map
      stripNode = m.nodes.map stripNode :=
    listModify_map _ _ _ _ (fun nd => rfl)
  simp [Module.setNodeSkip, Module.strip, hnodes]

/-- Flipping the module's `skip` flag does not change the structure. -/
theorem strip_setModSkip (m : Module) (b : Bool) :
    (m.setModSkip b).strip = m.strip := rfl

/-- Node lookup through `strip`. -/
theorem node?_strip (m : Module) (n : Nat) :
    m.strip.node? n = (m.node? n).map stripNode := by
  unfold Module.node? Module.strip
  exact List.get?_map _ _ _

/-- Node kinds are structural. -/
theorem kindAt_strip (m : Module) (n : Nat) :
    m.strip.kindAt n = m.kindAt n := by
  unfold Module.kindAt
  rw [node?_strip]
  cases m.node? n <;> rfl

/-- Output lookup through `strip`. -/
theorem output?_strip (m : Module) (p : Port) :
    m.strip.output? p = (m.output? p).map stripOut := by
  unfold Module.output?
  rw [node?_strip]
  cases m.node? p.node with
  | none => rfl
  | some nd => simp [stripNode, List.get?_map, Option.bind]

/-- Output widths are structural. -/
theorem widthAt_strip (m : Module) (p : Port) :
    m.strip.widthAt p = m.widthAt p := by
  unfold Module.widthAt
  rw [output?_strip]
  cases m.output? p <;> rfl

/-- Constant resolution is structural. -/
theorem to_const_strip (m : Module) (p : Port) :
    m.strip.to_const p = m.to_const p := by
  unfold Module.to_const
  rw [kindAt_strip]
  cases hk : m.kindAt p.node with
  | none => rfl
  | some k => cases k <;> simp [widthAt_strip]

/-- `is_const` is structural. -/
theorem isConst_strip (m : Module) (p : Port) :
    m.strip.isConst p = m.isConst p := by
  unfold Module.isConst
  rw [to_const_strip]

/-- The DFF init port is structural. -/
theorem dffInitPort_strip (m : Module) (n : Nat) :
    m.strip.dffInitPort n = m.dffInitPort n := by
  unfold Module.dffInitPort
  rw [kindAt_strip]
  cases hk : m.kindAt n with
  | none => rfl
  | some k => cases k <;> rfl

/-- `incoming` is structural (the edge list is untouched by `strip`). -/
theorem incoming_strip (m : Module) (n : Nat) :
    m.strip.incoming n = m.incoming n := rfl

/-- `outgoing` is structural. -/
theorem outgoingNodes_strip (m : Module) (p : Port) :
    m.strip.outgoingNodes p = m.outgoingNodes p := rfl

/-- `has_ports` is structural. -/
theorem hasPorts_strip (m : Module) (n : Nat) :
    m.strip.hasPorts n = m.hasPorts n := by
  unfold Module.hasPorts
  rw [node?_strip, incoming_strip]
  cases m.node? n with
  | none => rfl
  | some nd =>
    obtain ⟨k, outs, sk⟩ := nd
    cases outs <;> rfl

/-- Node count is structural. -/
theorem nodesLength_strip (m : Module) :
    m.strip.nodes.length = m.nodes.length := by
  simp [Module.strip]

/-- Excludability is structural. -/
theorem nodeExcludable_strip (m : Module) (n : Nat) :
    nodeExcludable m.strip n = nodeExcludable m n := by
  unfold nodeExcludable
  rw [nodesLength_strip]
  apply list_any_congr
  intro d _
  rw [dffInitPort_strip]
  cases m.dffInitPort d with
  | none => rfl
  | some q => simp [isConst_strip, outgoingNodes_strip]

/-- Transport of `kindAt` along equal structure. -/
theorem kindAt_congr {m1 m2 : Module} (h : m1.strip = m2.strip) (n : Nat) :
    m1.kindAt n = m2.kindAt n := by
  rw [← kindAt_strip m1, h, kindAt_strip]

/-- Transport of `widthAt` along equal structure. -/
theorem widthAt_congr {m1 m2 : Module} (h : m1.strip = m2.strip) (p : Port) :
    m1.widthAt p = m2.widthAt p := by
  rw [← widthAt_strip m1, h, widthAt_strip]

/-- Transport of `isConst` along equal structure. -/
theorem isConst_congr {m1 m2 : Module} (h : m1.strip = m2.strip) (p : Port) :
    m1.isConst p = m2.isConst p := by
  rw [← isConst_strip m1, h, isConst_strip]

/-- Transport of `hasPorts` along equal structure. -/
theorem hasPorts_congr {m1 m2 : Module} (h : m1.strip = m2.strip) (n : Nat) :
    m1.hasPorts n = m2.hasPorts n := by
  rw [← hasPorts_strip m1, h, hasPorts_strip]

/-- Transport of excludability along equal structure. -/
theorem nodeExcludable_congr {m1 m2 : Module} (h : m1.strip = m2.strip)
    (n : Nat) : nodeExcludable m1 n = nodeExcludable m2 n := by
  rw [← nodeExcludable_strip m1, h, nodeExcludable_strip]

/-- Transport of the edge list along equal structure. -/
theorem edges_congr {m1 m2 : Module} (h : m1.strip = m2.strip) :
    m1.edges = m2.edges := by
  have h2 := congrArg Module.edges h
  simpa [Module.strip] using h2

/-- Transport of `incoming` along equal structure. -/
theorem incoming_congr {m1 m2 : Module} (h : m1.strip = m2.strip) (n : Nat) :
    m1.incoming n = m2.incoming n := by
  unfold Module.incoming
  rw [edges_congr h]

/-- Transport of the designated-output list along equal structure. -/
theorem modOutputs_congr {m1 m2 : Module} (h : m1.strip = m2.strip) :
    m1.modOutputs = m2.modOutputs := by
  have h2 := congrArg Module.modOutputs h
  simpa [Module.strip] using h2

/-- Transport of output existence along equal structure. -/
theorem output?_isSome_congr {m1 m2 : Module} (h : m1.strip = m2.strip)
    (p : Port) : (m1.output? p).isSome = (m2.output? p).isSome := by
  have h1 := output?_strip m1 p
  have h2 := output?_strip m2 p
  rw [h] at h1
  rw [h1] at h2
  cases hx : m2.output? p <;> cases hy : m1.output? p <;>
    simp [hx, hy] at h2 ⊢

/-! ### How the setters move the skip flags (toward C2) -/

/-- Setting one output's flag leaves every other port's flag alone. -/
theorem outSkip_setOutSkip_ne (m : Module) (p : Port) (b : Bool) (q : Port)
    (h : q ≠ p) : (m.setOutSkip p b).outSkip q = m.outSkip q := by
  unfold Module.setOutSkip Module.outSkip Module.output? Module.node?
  dsimp only
  rw [listModify_get?]
  by_cases hn : q.node = p.node
  · rw [if_pos hn]
    cases hg : m.nodes.get? q.node with
    | none => rfl
    | some nd =>
      have hp : q.port ≠ p.port := by
        intro hp
        exact h (by cases q; cases p; simp_all)
      simp only [Option.map_some', Option.some_bind, listModify_get?,
        if_neg hp]
  · rw [if_neg hn]

/-- Setting a valid output's flag sets exactly that flag. -/
theorem outSkip_setOutSkip_self (m : Module) (p : Port) (b : Bool)
    (ho : (m.output? p).isSome = true) :
    (m.setOutSkip p b).outSkip p = b := by
  unfold Module.output? Module.node? at ho
  unfold Module.setOutSkip Module.outSkip Module.output? Module.node?
  dsimp only
  rw [listModify_get?, if_pos rfl]
  cases hg : m.nodes.get? p.node with
  | none => rw [hg] at ho; simp at ho
  | some nd =>
    rw [hg] at ho
    simp only [Option.map_some', Option.some_bind, listModify_get?,
      if_pos rfl]
    cases hgo : nd.outputs.get? p.port with
    | none =>
      simp only [Option.some_bind] at ho
      rw [hgo] at ho
      simp at ho
    | some o => simp

/-- A node-flag write does not touch output flags. -/
theorem outSkip_setNodeSkip (m : Module) (n : Nat) (b : Bool) (q : Port) :
    (m.setNodeSkip n b).outSkip q = m.outSkip q := by
  unfold Module.setNodeSkip Module.outSkip Module.output? Module.node?
  dsimp only
  rw [listModify_get?]
  by_cases hn : q.node = n
  · rw [if_pos hn]
    cases m.nodes.get? q.node <;> rfl
  · rw [if_neg hn]

/-- The module-flag write does not touch output flags. -/
theorem outSkip_setModSkip (m : Module) (b : Bool) (q : Port) :
    (m.setModSkip b).outSkip q = m.outSkip q := rfl

/-- An output-flag write does not touch node flags. -/
theorem nodeSkip_setOutSkip (m : Module) (p : Port) (b : Bool) (n : Nat) :
    (m.setOutSkip p b).nodeSkip n = m.nodeSkip n := by
  unfold Module.setOutSkip Module.nodeSkip Module.node?
  dsimp only
  rw [listModify_get?]
  by_cases hn : n = p.node
  · rw [if_pos hn]
    cases m.nodes.get? n <;> rfl
  · rw [if_neg hn]

/-- Setting a valid node's flag sets exactly that flag. -/
theorem nodeSkip_setNodeSkip_self (m : Module) (n : Nat) (b : Bool)
    (hn : (m.node? n).isSome = true) :
    (m.setNodeSkip n b).nodeSkip n = b := by
  unfold Module.node? at hn
  unfold Module.setNodeSkip Module.nodeSkip Module.node?
  dsimp only
  rw [listModify_get?, if_pos rfl]
  cases hg : m.nodes.get? n with
  | none => rw [hg] at hn; simp at hn
  | some nd => rfl

/-- Setting one node's flag leaves every other node's flag alone. -/
theorem nodeSkip_setNodeSkip_ne (m : Module) (n : Nat) (b : Bool) (k : Nat)
    (h : k ≠ n) : (m.setNodeSkip n b).nodeSkip k = m.nodeSkip k := by
  unfold Module.setNodeSkip Module.nodeSkip Module.node?
  dsimp only
  rw [listModify_get?, if_neg h]

/-- The module-flag write does not touch node flags. -/
theorem nodeSkip_setModSkip (m : Module) (b : Bool) (n : Nat) :
    (m.setModSkip b).nodeSkip n = m.nodeSkip n := rfl

/-- A port of nonzero width resolves to an existing output. -/
theorem output?_isSome_of_width (m : Module) (p : Port)
    (hw : m.widthAt p ≠ 0) : (m.output? p).isSome = true := by
  unfold Module.widthAt at hw
  cases ho : m.output? p with
  | none => rw [ho] at hw; simp at hw
  | some o => rfl

/-- A port with an existing output sits on an existing node. -/
theorem node?_isSome_of_output (m : Module) (p : Port)
    (ho : (m.output? p).isSome = true) : (m.node? p.node).isSome = true := by
  unfold Module.output? at ho
  cases hn : m.node? p.node with
  | none => rw [hn] at ho; simp at ho
  | some nd => rfl

/-- A port of nonzero width makes its node port-bearing (`has_ports`). -/
theorem hasPorts_of_width (m : Module) (p : Port) (hw : m.widthAt p ≠ 0) :
    m.hasPorts p.node = true := by
  have ho := output?_isSome_of_width m p hw
  unfold Module.output? at ho
  unfold Module.hasPorts
  cases hn : m.node? p.node with
  | none => rw [hn] at ho; simp at ho
  | some nd =>
    rw [hn] at ho
    simp only [Option.some_bind] at ho
    cases hgo : nd.outputs.get? p.port with
    | none => rw [hgo] at ho; simp at ho
    | some o =>
      have : nd.outputs ≠ [] := by
        intro hnil
        rw [hnil] at hgo
        cases p.port <;> simp [List.get?] at hgo
      simp [this]

/-- A successful DFF-init exclusion certifies the excluded node. -/
theorem reachExclude_excludable (m : Module) (p0 : Port) (init : Port)
    (h : reachExclude m p0 = some init) :
    nodeExcludable m init.node = true := by
  unfold reachExclude at h
  cases hdi : m.dffInitPort p0.node with
  | none => rw [hdi] at h; cases h
  | some q =>
    rw [hdi] at h
    dsimp only at h
    by_cases hc : (m.isConst q
        && (m.outgoingNodes q).all (fun n => n == p0.node)) = true
    · rw [if_pos hc] at h
      cases h
      have hlt : p0.node < m.nodes.length := by
        unfold Module.dffInitPort at hdi
        cases hk : m.kindAt p0.node with
        | none => rw [hk] at hdi; cases hdi
        | some k =>
          unfold Module.kindAt Module.node? at hk
          cases hg : m.nodes.get? p0.node with
          | none => rw [hg] at hk; cases hk
          | some nd => obtain ⟨h1, _⟩ := List.get?_eq_some.mp hg; exact h1
      unfold nodeExcludable
      rw [List.any_eq_true]
      refine ⟨p0.node, List.mem_range.mpr hlt, ?_⟩
      rw [hdi]
      simp only [Bool.and_eq_true] at hc ⊢
      exact ⟨⟨by simp, hc.1⟩, hc.2⟩
    · rw [if_neg hc] at h
      cases h

/-- `LiveCoherent` holds for any module whose flags are all still in the
presumptively-dead initial state. -/
theorem liveCoherent_of_allSkip (m : Module)
    (h : ∀ nd ∈ m.nodes, ∀ o ∈ nd.outputs, o.skip = true) :
    LiveCoherent m := by
  intro p _ hout
  exfalso
  unfold Module.outSkip at hout
  cases ho : m.output? p with
  | none => rw [ho] at hout; simp at hout
  | some o =>
    rw [ho] at hout
    simp only [Option.map_some', Option.getD_some] at hout
    unfold Module.output? Module.node? at ho
    cases hn : m.nodes.get? p.node with
    | none => rw [hn] at ho; cases ho
    | some nd =>
      rw [hn] at ho
      simp only [Option.some_bind] at ho
      have hmem := List.get?_mem hn
      have homem := List.get?_mem ho
      have := h nd hmem o homem
      rw [this] at hout
      cases hout

/-! ### One processing step of the walk (toward C2) -/

/-- An output flagged live exists. -/
theorem output?_isSome_of_outSkip_false (m : Module) (q : Port)
    (h : m.outSkip q = false) : (m.output? q).isSome = true := by
  unfold Module.outSkip at h
  cases ho : m.output? q with
  | none => rw [ho] at h; simp at h
  | some o => rfl

/-- The kill step does not change the structure. -/
theorem strip_reachKill (m : Module) (q : Port) :
    (reachKill m q).strip = m.strip := by
  unfold reachKill
  rw [strip_setNodeSkip, strip_setOutSkip]

/-- The mark step does not change the structure. -/
theorem strip_reachMark (m : Module) (p : Port) :
    (reachMark m p).strip = m.strip := by
  unfold reachMark
  rw [strip_setModSkip, strip_setNodeSkip, strip_setOutSkip]

/-- The whole processing step does not change the structure. -/
theorem strip_reachProcess (m : Module) (p : Port) (rest : List Port) :
    (reachProcess m p rest).1.strip = m.strip := by
  unfold reachProcess
  dsimp only
  cases reachExclude m p with
  | none => rw [strip_reachMark]
  | some init => rw [strip_reachMark, strip_reachKill]

/-- The processing step keeps the remainder of the worklist. -/
theorem mem_reachProcess_snd (m : Module) (p : Port) (rest : List Port)
    (q : Port) (hq : q ∈ rest) : q ∈ (reachProcess m p rest).2 := by
  unfold reachProcess
  dsimp only
  cases reachExclude m p <;> exact List.mem_append_right _ hq

/-- The kill step leaves ports of other nodes alone. -/
theorem outSkip_reachKill_ne (m : Module) (q : Port) (r : Port)
    (h : r.node ≠ q.node) : (reachKill m q).outSkip r = m.outSkip r := by
  unfold reachKill
  rw [outSkip_setNodeSkip, outSkip_setOutSkip_ne]
  intro he
  exact h (by rw [he])

/-- The kill step leaves other nodes' flags alone. -/
theorem nodeSkip_reachKill_ne (m : Module) (q : Port) (k : Nat)
    (h : k ≠ q.node) : (reachKill m q).nodeSkip k = m.nodeSkip k := by
  unfold reachKill
  rw [nodeSkip_setNodeSkip_ne _ _ _ _ h, nodeSkip_setOutSkip]

/-- The mark step makes the marked (existing) port live. -/
theorem outSkip_reachMark_self (m : Module) (p : Port)
    (ho : (m.output? p).isSome = true) :
    (reachMark m p).outSkip p = false := by
  unfold reachMark
  rw [outSkip_setModSkip, outSkip_setNodeSkip, outSkip_setOutSkip_self _ _ _ ho]

/-- The mark step makes the marked (existing) node live. -/
theorem nodeSkip_reachMark_self (m : Module) (p : Port)
    (hn : (m.node? p.node).isSome = true) :
    (reachMark m p).nodeSkip p.node = false := by
  unfold reachMark
  rw [nodeSkip_setModSkip]
  apply nodeSkip_setNodeSkip_self
  unfold Module.setOutSkip Module.node?
  dsimp only
  rw [listModify_get?, if_pos rfl]
  unfold Module.node? at hn
  cases hg : m.nodes.get? p.node with
  | none => rw [hg] at hn; simp at hn
  | some nd => rfl

/-- The mark step leaves other ports' flags alone. -/
theorem outSkip_reachMark_ne (m : Module) (p : Port) (q : Port) (h : q ≠ p) :
    (reachMark m p).outSkip q = m.outSkip q := by
  unfold reachMark
  rw [outSkip_setModSkip, outSkip_setNodeSkip, outSkip_setOutSkip_ne _ _ _ _ h]

/-- The mark step leaves other nodes' flags alone. -/
theorem nodeSkip_reachMark_ne (m : Module) (p : Port) (k : Nat)
    (h : k ≠ p.node) : (reachMark m p).nodeSkip k = m.nodeSkip k := by
  unfold reachMark
  rw [nodeSkip_setModSkip, nodeSkip_setNodeSkip_ne _ _ _ _ h, nodeSkip_setOutSkip]

/-- Processing a port of nonzero width marks it and its node live. -/
theorem reachProcess_marks (m : Module) (p : Port) (rest : List Port)
    (hw : m.widthAt p ≠ 0) :
    (reachProcess m p rest).1.outSkip p = false ∧
    (reachProcess m p rest).1.nodeSkip p.node = false := by
  unfold reachProcess
  dsimp only
  have hvo := output?_isSome_of_width m p hw
  have hvn := node?_isSome_of_output m p hvo
  cases hex : reachExclude m p with
  | none => exact ⟨outSkip_reachMark_self m p hvo, nodeSkip_reachMark_self m p hvn⟩
  | some init =>
    have hstrip := strip_reachKill m init
    have hvo' : ((reachKill m init).output? p).isSome = true := by
      rw [output?_isSome_congr hstrip p]
      exact hvo
    have hvn' : ((reachKill m init).node? p.node).isSome = true := by
      apply node?_isSome_of_output _ _ hvo'
    exact ⟨outSkip_reachMark_self _ p hvo', nodeSkip_reachMark_self _ p hvn'⟩

/-- Processing preserves liveness of ports on non-excludable nodes. -/
theorem reachProcess_preserves_live (m : Module) (p : Port)
    (rest : List Port) (q : Port)
    (hne : nodeExcludable m q.node = false)
    (ho : m.outSkip q = false) (hn : m.nodeSkip q.node = false) :
    (reachProcess m p rest).1.outSkip q = false ∧
    (reachProcess m p rest).1.nodeSkip q.node = false := by
  unfold reachProcess
  dsimp only
  have hov := output?_isSome_of_outSkip_false m q ho
  have hnv := node?_isSome_of_output m q hov
  cases hex : reachExclude m p with
  | none =>
    constructor
    · by_cases hqp : q = p
      · subst hqp; exact outSkip_reachMark_self m q hov
      · rw [outSkip_reachMark_ne m p q hqp]; exact ho
    · by_cases hqn : q.node = p.node
      · rw [hqn]
        apply nodeSkip_reachMark_self
        rw [← hqn]; exact hnv
      · rw [nodeSkip_reachMark_ne m p q.node hqn]; exact hn
  | some init =>
    have hexc := reachExclude_excludable m p init hex
    have hqi : q.node ≠ init.node := by
      intro he
      rw [he, hexc] at hne
      cases hne
    have ho1 : (reachKill m init).outSkip q = false := by
      rw [outSkip_reachKill_ne m init q hqi]; exact ho
    have hn1 : (reachKill m init).nodeSkip q.node = false := by
      rw [nodeSkip_reachKill_ne m init q.node hqi]; exact hn
    have hov1 := output?_isSome_of_outSkip_false _ q ho1
    have hnv1 := node?_isSome_of_output _ q hov1
    constructor
    · by_cases hqp : q = p
      · subst hqp; exact outSkip_reachMark_self _ q hov1
      · rw [outSkip_reachMark_ne _ p q hqp]; exact ho1
    · by_cases hqn : q.node = p.node
      · rw [hqn]
        apply nodeSkip_reachMark_self
        rw [← hqn]; exact hnv1
      · rw [nodeSkip_reachMark_ne _ p q.node hqn]; exact hn1

/-- Transport of node existence along equal structure. -/
theorem node?_isSome_congr {m1 m2 : Module} (h : m1.strip = m2.strip)
    (n : Nat) : (m1.node? n).isSome = (m2.node? n).isSome := by
  have h1 := node?_strip m1 n
  have h2 := node?_strip m2 n
  rw [h] at h1
  rw [h1] at h2
  cases hx : m2.node? n <;> cases hy : m1.node? n <;>
    simp [hx, hy] at h2 ⊢

/-- Processing a port whose node exists marks that node live. -/
theorem reachProcess_nodeSkip_marked (m : Module) (p : Port)
    (rest : List Port) (hn : (m.node? p.node).isSome = true) :
    (reachProcess m p rest).1.nodeSkip p.node = false := by
  unfold reachProcess
  dsimp only
  cases hex : reachExclude m p with
  | none => exact nodeSkip_reachMark_self m p hn
  | some init =>
    apply nodeSkip_reachMark_self
    rw [node?_isSome_congr (strip_reachKill m init) p.node]
    exact hn

/-- Processing leaves the port flags of other, non-excludable nodes alone. -/
theorem reachProcess_outSkip_ne (m : Module) (p : Port) (rest : List Port)
    (q : Port) (hqn : q.node ≠ p.node)
    (hne : nodeExcludable m q.node = false) :
    (reachProcess m p rest).1.outSkip q = m.outSkip q := by
  unfold reachProcess
  dsimp only
  cases hex : reachExclude m p with
  | none => exact outSkip_reachMark_ne m p q (fun he => hqn (by rw [he]))
  | some init =>
    have hexc := reachExclude_excludable m p init hex
    have hqi : q.node ≠ init.node := by
      intro he
      rw [he, hexc] at hne
      cases hne
    rw [outSkip_reachMark_ne _ p q (fun he => hqn (by rw [he])),
      outSkip_reachKill_ne m init q hqi]

/-- Processing leaves the node flags of other, non-excludable nodes alone. -/
theorem reachProcess_nodeSkip_ne (m : Module) (p : Port) (rest : List Port)
    (k : Nat) (hk : k ≠ p.node) (hne : nodeExcludable m k = false) :
    (reachProcess m p rest).1.nodeSkip k = m.nodeSkip k := by
  unfold reachProcess
  dsimp only
  cases hex : reachExclude m p with
  | none => exact nodeSkip_reachMark_ne m p k hk
  | some init =>
    have hexc := reachExclude_excludable m p init hex
    have hqi : k ≠ init.node := by
      intro he
      rw [he, hexc] at hne
      cases hne
    rw [nodeSkip_reachMark_ne _ p k hk, nodeSkip_reachKill_ne m init k hqi]

/-- Processing preserves `LiveCoherent`. -/
theorem reachProcess_liveCoherent (m : Module) (p : Port) (rest : List Port)
    (hc : LiveCoherent m) : LiveCoherent (reachProcess m p rest).1 := by
  intro q hneq hout
  have hstrip := strip_reachProcess m p rest
  have hne : nodeExcludable m q.node = false := by
    rw [← nodeExcludable_congr hstrip q.node]
    exact hneq
  have hov2 := output?_isSome_of_outSkip_false _ q hout
  have hnv2 := node?_isSome_of_output _ q hov2
  by_cases hqn : q.node = p.node
  · have hmn : (m.node? p.node).isSome = true := by
      rw [node?_isSome_congr hstrip q.node] at hnv2
      rw [← hqn]
      exact hnv2
    rw [hqn]
    exact reachProcess_nodeSkip_marked m p rest hmn
  · have hoq : m.outSkip q = false := by
      rw [← reachProcess_outSkip_ne m p rest q hqn hne]
      exact hout
    rw [reachProcess_nodeSkip_ne m p rest q.node hqn hne]
    exact hc q hne hoq

/-- The walk invariant: if every tracked output of nonzero width on a
non-excludable node is on the worklist or already live (with its node), then
after the loop drains the worklist — however much fuel that takes — each of
them is live, and the module structure is unchanged. -/
theorem reachGo_invariant : ∀ (fuel : Nat) (m : Module) (ports : List Port)
    (sched : List Nat) (outs : List Port) (m' : Module) (sched' : List Nat),
    reachGo fuel m ports sched = some (m', sched') →
    LiveCoherent m →
    (∀ p ∈ outs, m.widthAt p ≠ 0 → nodeExcludable m p.node = false →
      (p ∈ ports ∨ (m.outSkip p = false ∧ m.nodeSkip p.node = false))) →
    m'.strip = m.strip ∧
    (∀ p ∈ outs, m.widthAt p ≠ 0 → nodeExcludable m p.node = false →
      (m'.outSkip p = false ∧ m'.nodeSkip p.node = false)) := by
  intro fuel
  induction fuel with
  | zero =>
    intro m ports sched outs m' sched' hrun hc hinv
    cases ports with
    | nil =>
      simp only [reachGo, Option.some.injEq, Prod.mk.injEq] at hrun
      obtain ⟨hm, _⟩ := hrun
      subst hm
      refine ⟨rfl, ?_⟩
      intro p hp hw hne
      rcases hinv p hp hw hne with hmem | hlive
      · cases hmem
      · exact hlive
    | cons p0 rest => simp [reachGo] at hrun
  | succ f ih =>
    intro m ports sched outs m' sched' hrun hc hinv
    cases ports with
    | nil =>
      simp only [reachGo, Option.some.injEq, Prod.mk.injEq] at hrun
      obtain ⟨hm, _⟩ := hrun
      subst hm
      refine ⟨rfl, ?_⟩
      intro p hp hw hne
      rcases hinv p hp hw hne with hmem | hlive
      · cases hmem
      · exact hlive
    | cons p0 rest =>
      simp only [reachGo] at hrun
      by_cases hg : (!(m.outSkip p0) || m.widthAt p0 == 0) = true
      · rw [if_pos hg] at hrun
        apply ih m rest sched outs m' sched' hrun hc
        intro p hp hw hne
        rcases hinv p hp hw hne with hmem | hlive
        · rcases List.mem_cons.mp hmem with heq | hmem'
          · subst heq
            right
            have hs : m.outSkip p = false := by
              simp only [Bool.or_eq_true, Bool.not_eq_true', beq_iff_eq] at hg
              rcases hg with h1 | h1
              · exact h1
              · exact absurd h1 hw
            exact ⟨hs, hc p hne hs⟩
          · exact Or.inl hmem'
        · exact Or.inr hlive
      · rw [if_neg hg] at hrun
        have hw0 : m.widthAt p0 ≠ 0 := by
          intro h0
          exact hg (by simp [h0])
        have hproc : ∀ sched2 : List Nat,
            reachGo f (reachProcess m p0 rest).1 (reachProcess m p0 rest).2
                sched2 = some (m', sched') →
            m'.strip = m.strip ∧
            (∀ p ∈ outs, m.widthAt p ≠ 0 → nodeExcludable m p.node = false →
              (m'.outSkip p = false ∧ m'.nodeSkip p.node = false)) := by
          intro sched2 hrun2
          have hstrip := strip_reachProcess m p0 rest
          have hc2 := reachProcess_liveCoherent m p0 rest hc
          have hinv2 : ∀ p ∈ outs,
              (reachProcess m p0 rest).1.widthAt p ≠ 0 →
              nodeExcludable (reachProcess m p0 rest).1 p.node = false →
              (p ∈ (reachProcess m p0 rest).2 ∨
                ((reachProcess m p0 rest).1.outSkip p = false ∧
                  (reachProcess m p0 rest).1.nodeSkip p.node = false)) := by
            intro p hp hw' hne'
            have hw : m.widthAt p ≠ 0 := by
              rw [← widthAt_congr hstrip p]
              exact hw'
            have hne : nodeExcludable m p.node = false := by
              rw [← nodeExcludable_congr hstrip p.node]
              exact hne'
            rcases hinv p hp hw hne with hmem | hlive
            · rcases List.mem_cons.mp hmem with heq | hmem'
              · subst heq
                exact Or.inr (reachProcess_marks m p rest hw)
              · exact Or.inl (mem_reachProcess_snd m p0 rest p hmem')
            · exact Or.inr
                (reachProcess_preserves_live m p0 rest p hne hlive.1 hlive.2)
          obtain ⟨hstrip', hfin⟩ := ih (reachProcess m p0 rest).1
            (reachProcess m p0 rest).2 sched2 outs m' sched' hrun2 hc2 hinv2
          refine ⟨hstrip'.trans hstrip, ?_⟩
          intro p hp hw hne
          apply hfin p hp
          · rw [widthAt_congr hstrip p]
            exact hw
          · rw [nodeExcludable_congr hstrip p.node]
            exact hne
        cases hk : m.kindAt p0.node with
        | none =>
          rw [hk] at hrun
          dsimp only at hrun
          exact hproc sched hrun
        | some k =>
          cases k <;>
            first
            | (rw [hk] at hrun
               dsimp only at hrun
               exact hproc sched hrun)
            | (rename_i mid
               rw [hk] at hrun
               have hhp : m.hasPorts p0.node = true :=
                 hasPorts_of_width m p0 hw0
               dsimp only at hrun
               rw [hhp] at hrun
               simp only [Bool.not_true, Bool.false_eq_true, if_false] at hrun
               exact hproc (sched ++ [mid]) hrun)

/-- C2 (amended): after the Reachability pass (the only pipeline stage that
writes `skip` flags), every designated output port of nonzero width whose
node is not a DFF-init-excludable constant resolves to a live node: both the
port's and its node's `skip` flags are false.  A designated output that *is*
such a constant (or has zero width) can be left marked dead, as the
counterexample shows. -/
theorem C2_live_outputs_after_reachability (fuel : Nat) (m m' : Module)
    (sched : List Nat)
    (hrun : Reachability.visitModule fuel m = some (m', sched))
    (hc : LiveCoherent m) (p : Port) (hp : p ∈ m.modOutputs)
    (hw : m.widthAt p ≠ 0) (hne : nodeExcludable m p.node = false) :
    m'.outSkip p = false ∧ m'.nodeSkip p.node = false := by
  unfold Reachability.visitModule at hrun
  have h := reachGo_invariant fuel m m.modOutputs [] m.modOutputs m' sched
    hrun hc (fun q hq _ _ => Or.inl hq)
  exact h.2 p hp hw hne

/-- C2 witness: in the counterexample module `exM2`, the *other* designated
output — the DFF's own port — is indeed left live by the pass. -/
theorem C2_live_outputs_after_reachability_witness :
    (Reachability.visitModule 10 exM2 = some (exM2res, []) ∧
      (⟨2, 0⟩ : Port) ∈ exM2.modOutputs ∧
      exM2.widthAt ⟨2, 0⟩ ≠ 0 ∧
      nodeExcludable exM2 (⟨2, 0⟩ : Port).node = false) ∧
    (exM2res.outSkip ⟨2, 0⟩ = false ∧
      exM2res.nodeSkip (⟨2, 0⟩ : Port).node = false) :=
  ⟨⟨by decide, by decide, by decide, by decide⟩,
    C2_live_outputs_after_reachability 10 exM2 exM2res [] (by decide)
      (liveCoherent_of_allSkip exM2 (by decide)) ⟨2, 0⟩ (by decide)
      (by decide) (by decide)⟩

/-! ### Round-trip of the bit-vector flattening (C8) -/

/-- Splitting a concatenation: dividing by the low part's capacity recovers
the high part, taking the remainder recovers the low part. -/
theorem concat_split (a b L : Nat) (hb : b < 2 ^ L) :
    (a * 2 ^ L + b) / 2 ^ L = a ∧ (a * 2 ^ L + b) % 2 ^ L = b := by
  have hpos : 0 < 2 ^ L := Nat.pos_pow_of_pos _ (by norm_num)
  constructor
  · rw [Nat.add_comm, Nat.mul_comm, Nat.add_mul_div_left _ _ hpos,
      Nat.div_eq_of_lt hb]
    omega
  · rw [Nat.add_comm, Nat.mul_comm, Nat.add_mul_mod_self_left,
      Nat.mod_eq_of_lt hb]

/-- A concatenation of a `w`-bit and an `L`-bit value fits in `w + L` bits. -/
theorem concat_bound (a b w L : Nat) (ha : a < 2 ^ w) (hb : b < 2 ^ L) :
    a * 2 ^ L + b < 2 ^ (w + L) := by
  have h1 : a * 2 ^ L + b < (a + 1) * 2 ^ L := by
    calc a * 2 ^ L + b < a * 2 ^ L + 2 ^ L := by
          have : 0 < 2 ^ L := Nat.pos_pow_of_pos _ (by norm_num)
          omega
      _ = (a + 1) * 2 ^ L := by ring
  have h2 : (a + 1) * 2 ^ L ≤ 2 ^ w * 2 ^ L :=
    Nat.mul_le_mul_right _ (by omega)
  calc a * 2 ^ L + b < (a + 1) * 2 ^ L := h1
    _ ≤ 2 ^ w * 2 ^ L := h2
    _ = 2 ^ (w + L) := (Nat.pow_add 2 w L).symm

mutual

/-- Round trip, total width and bound for one well-typed item. -/
theorem wt_roundTrip : ∀ (t : SignalTy) (i : Item), Item.wt t i = true →
    t.fromBits i.toBits = i ∧ i.width = t.width ∧ i.toBits < 2 ^ t.width
  | .prim w, .prim w' v, h => by
    simp only [Item.wt, Bool.and_eq_true, beq_iff_eq, decide_eq_true_eq] at h
    obtain ⟨rfl, hv⟩ := h
    refine ⟨?_, rfl, ?_⟩
    · simp [SignalTy.fromBits, Item.toBits, Nat.mod_eq_of_lt hv,
        Nat.mod_eq_of_lt hv]
    · simpa [Item.toBits, Nat.mod_eq_of_lt hv, SignalTy.width] using hv
  | .array n t, .group items, h => by
    simp only [Item.wt, Bool.and_eq_true, beq_iff_eq] at h
    obtain ⟨hlen, hall⟩ := h
    obtain ⟨h1, h2, h3⟩ := wtAll_roundTrip t items hall
    subst hlen
    exact ⟨by simpa [SignalTy.fromBits, Item.toBits] using congrArg Item.group h1,
      by simpa [Item.width, SignalTy.width] using h2,
      by simpa [Item.toBits, SignalTy.width] using h3⟩
  | .group ts, .group items, h => by
    have h' : Item.wtZip ts items = true := h
    obtain ⟨h1, h2, h3⟩ := wtZip_roundTrip ts items h'
    exact ⟨by simpa [SignalTy.fromBits, Item.toBits] using congrArg Item.group h1,
      by simpa [Item.width, SignalTy.width] using h2,
      by simpa [Item.toBits, SignalTy.width] using h3⟩
  | .prim _, .group _, h => by simp [Item.wt] at h
  | .array _ _, .prim _ _, h => by simp [Item.wt] at h
  | .group _, .prim _ _, h => by simp [Item.wt] at h
  termination_by t i h => sizeOf i

/-- Round trip for a homogeneous list of well-typed items (array members). -/
theorem wtAll_roundTrip : ∀ (t : SignalTy) (is : List Item),
    Item.wtAll t is = true →
    SignalTy.fromBitsN is.length t (Item.toBitsList is) = is ∧
    Item.widthList is = is.length * t.width ∧
    Item.toBitsList is < 2 ^ (is.length * t.width)
  | _, [], _ => by
    simp [SignalTy.fromBitsN, Item.toBitsList, Item.widthList]
  | t, i :: is, h => by
    simp only [Item.wtAll, Bool.and_eq_true] at h
    obtain ⟨hi, his⟩ := h
    obtain ⟨ih1, ih2, ih3⟩ := wt_roundTrip t i hi
    obtain ⟨jh1, jh2, jh3⟩ := wtAll_roundTrip t is his
    have hsplit := concat_split i.toBits (Item.toBitsList is)
      (is.length * t.width) (jh2 ▸ jh3)
    refine ⟨?_, ?_, ?_⟩
    · simp only [List.length_cons, SignalTy.fromBitsN, Item.toBitsList, jh2,
        hsplit.1, hsplit.2, ih1, jh1]
    · simp only [Item.widthList, ih2, jh2, List.length_cons, Nat.succ_mul,
        Nat.add_comm]
    · have hbound := concat_bound i.toBits (Item.toBitsList is)
        t.width (is.length * t.width) (ih2 ▸ ih3) (jh2 ▸ jh3)
      simpa [Item.toBitsList, jh2, List.length_cons, Nat.succ_mul,
        Nat.add_comm, Nat.pow_add, Nat.mul_comm] using hbound
  termination_by t is _ => sizeOf is

/-- Round trip for a heterogeneous list of well-typed items (group members). -/
theorem wtZip_roundTrip : ∀ (ts : List SignalTy) (is : List Item),
    Item.wtZip ts is = true →
    SignalTy.fromBitsList ts (Item.toBitsList is) = is ∧
    Item.widthList is = SignalTy.widthList ts ∧
    Item.toBitsList is < 2 ^ SignalTy.widthList ts
  | [], [], _ => by
    simp [SignalTy.fromBitsList, Item.toBitsList, Item.widthList,
      SignalTy.widthList]
  | t :: ts, i :: is, h => by
    simp only [Item.wtZip, Bool.and_eq_true] at h
    obtain ⟨hi, his⟩ := h
    obtain ⟨ih1, ih2, ih3⟩ := wt_roundTrip t i hi
    obtain ⟨jh1, jh2, jh3⟩ := wtZip_roundTrip ts is his
    have hsplit := concat_split i.toBits (Item.toBitsList is)
      (SignalTy.widthList ts) (jh2 ▸ jh3)
    refine ⟨?_, ?_, ?_⟩
    · simp only [SignalTy.fromBitsList, Item.toBitsList, jh2, hsplit.1,
        hsplit.2, ih1, jh1]
    · simp only [Item.widthList, SignalTy.widthList, ih2, jh2]
    · have hbound := concat_bound i.toBits (Item.toBitsList is)
        t.width (SignalTy.widthList ts) (ih2 ▸ ih3) (jh2 ▸ jh3)
      simpa [Item.toBitsList, jh2, SignalTy.widthList, Nat.pow_add,
        Nat.mul_comm] using hbound
  | [], _ :: _, h => by simp [Item.wtZip] at h
  | _ :: _, [], h => by simp [Item.wtZip] at h
  termination_by ts is h => sizeOf is

end

/-- C8: for every composite shape and every well-typed value of that shape,
`from_bitvec (to_bitvec v) = v`, and the flattened width equals the shape's
total (sum-of-components) width — the conversion is a lossless structural
bijection. -/
theorem C8_from_to_bitvec_roundTrip (t : SignalTy) (i : Item)
    (h : Item.wt t i = true) :
    t.fromBits i.toBits = i ∧ i.width = t.width :=
  ⟨(wt_roundTrip t i h).1, (wt_roundTrip t i h).2.1⟩

/-! ### `inline_mod` no-op guards (C9) -/

/-- C9: `NetList::inline_mod` is a no-op — it returns `None` and leaves the
containing module's node list and edges unchanged — whenever the designated
node is not a `ModInst`, or is a `ModInst` whose target is the containing
module itself (the self-recursion guard). -/
theorem C9_inline_mod_self_noop (nl : NetList) (tid : Nat) (m : Module)
    (instId : Nat)
    (h : ∀ mid, m.kindAt instId = some (.modInst mid) → mid = tid) :
    NetList.inlineMod nl tid m instId = (none, m) := by
  unfold NetList.inlineMod
  split
  · next mid heq => rw [if_pos (h mid heq)]
  · rfl

/-- C9 witness: a `ModInst` node that targets its own containing module. -/
theorem C9_inline_mod_self_noop_witness :
    (∀ mid, exM9.kindAt 0 = some (.modInst mid) → mid = 0) ∧
    NetList.inlineMod exNl9 0 exM9 0 = (none, exM9) :=
  ⟨fun mid h => by
      simp [exM9, Module.kindAt, Module.node?] at h
      omega,
    C9_inline_mod_self_noop exNl9 0 exM9 0 (fun mid h => by
      simp [exM9, Module.kindAt, Module.node?] at h
      omega)⟩

/-! ### Merger constant folding (C5) and Auto inlining (C4) -/

/-- Bitwise or of a left shift with a value that fits in the shift amount is
plain concatenation arithmetic. -/
theorem lor_shiftLeft_add (a b w : Nat) (hb : b < 2 ^ w) :
    (a <<< w) ||| b = a * 2 ^ w + b := by
  have hm : ((a <<< w) ||| b) % 2 ^ w = b := by
    apply Nat.eq_of_testBit_eq
    intro i
    rw [Nat.testBit_mod_two_pow, Nat.testBit_lor, Nat.testBit_shiftLeft]
    by_cases hi : i < w
    · have hge : ¬ i ≥ w := by omega
      simp [hi, hge]
    · have hbi : b.testBit i = false :=
        Nat.testBit_lt_two_pow
          (lt_of_lt_of_le hb (Nat.pow_le_pow_right (by norm_num) (by omega)))
      simp [hi, hbi]
  have hd : ((a <<< w) ||| b) / 2 ^ w = a := by
    rw [← Nat.shiftRight_eq_div_pow]
    apply Nat.eq_of_testBit_eq
    intro i
    rw [Nat.testBit_shiftRight, Nat.testBit_lor, Nat.testBit_shiftLeft]
    have hge : w + i ≥ w := by omega
    have hbi : b.testBit (w + i) = false :=
      Nat.testBit_lt_two_pow
        (lt_of_lt_of_le hb (Nat.pow_le_pow_right (by norm_num) (by omega)))
    simp [hge, hbi, Nat.add_sub_cancel_left]
  have hdm := Nat.div_add_mod ((a <<< w) ||| b) (2 ^ w)
  rw [hd, hm, Nat.mul_comm] at hdm
  omega

/-- The `ConstVal::shift` fold of the Merger arm, evaluated: starting from
an in-range accumulator it concatenates MSB-first and sums the widths. -/
theorem shift_foldlM (cvs : List ConstVal) (acc : ConstVal)
    (hw : acc.width + (cvs.map ConstVal.width).sum ≤ 128)
    (hv : acc.val < 2 ^ acc.width) :
    cvs.foldlM ConstVal.shift acc
      = some ⟨concatAcc acc.val (cvs.map fun c => (c.width, c.val)),
              acc.width + (cvs.map ConstVal.width).sum⟩ := by
  induction cvs generalizing acc with
  | nil => simp [concatAcc, List.foldlM]
  | cons c rest ih =>
    have hw1 : acc.width + c.width ≤ 128 := by
      simp only [List.map_cons, List.sum_cons] at hw
      omega
    have hstep : ConstVal.shift acc c
        = some ⟨acc.val * 2 ^ c.width + c.val % 2 ^ c.width,
                acc.width + c.width⟩ := by
      simp only [ConstVal.shift, hw1, if_pos]
      rw [lor_shiftLeft_add _ _ _ (Nat.mod_lt _ (Nat.pos_pow_of_pos _ (by norm_num)))]
    have hv' : acc.val * 2 ^ c.width + c.val % 2 ^ c.width
        < 2 ^ (acc.width + c.width) :=
      concat_bound _ _ _ _ hv (Nat.mod_lt _ (Nat.pos_pow_of_pos _ (by norm_num)))
    have hw' : (acc.width + c.width) + (rest.map ConstVal.width).sum ≤ 128 := by
      simp only [List.map_cons, List.sum_cons] at hw
      omega
    have := ih ⟨acc.val * 2 ^ c.width + c.val % 2 ^ c.width,
      acc.width + c.width⟩ hw' hv'
    simp only [List.foldlM, hstep, Option.bind_eq_bind, Option.some_bind]
    rw [this]
    simp [concatAcc, Nat.add_assoc]

/-- An MSB-first concatenation onto an in-range accumulator stays in range
of the accumulated width. -/
theorem concatAcc_lt (l : List (Nat × Nat)) (acc W : Nat) (h : acc < 2 ^ W) :
    concatAcc acc l < 2 ^ (W + (l.map Prod.fst).sum) := by
  induction l generalizing acc W with
  | nil => simpa [concatAcc] using h
  | cons wv rest ih =>
    have hstep : acc * 2 ^ wv.1 + wv.2 % 2 ^ wv.1 < 2 ^ (W + wv.1) :=
      concat_bound _ _ _ _ h (Nat.mod_lt _ (Nat.pos_pow_of_pos _ (by norm_num)))
    have := ih (acc * 2 ^ wv.1 + wv.2 % 2 ^ wv.1) (W + wv.1) hstep
    simpa [concatAcc, Nat.add_assoc] using this

/-- `eliminate_const` only rewires edges; it never changes the node list. -/
theorem eliminateConst_nodes (cfg : NetListCfg) (cons : ConsMap) (m : Module)
    (v : ConstVal) (p : Port) :
    (eliminateConst cfg cons m v p).2.nodes = m.nodes := by
  unfold eliminateConst Module.reconnectAllOutgoing
  split
  · rfl
  · split <;> rfl

/-- Replacing a node with a `Const` puts that kind at its id. -/
theorem kindAt_replaceWithConstNode (m : Module) (n : Nat) (args : ConstArgs)
    (h : n < m.nodes.length) :
    (m.replaceWithConstNode n args).kindAt n = some (.const args.value) := by
  unfold Module.replaceWithConstNode Module.kindAt Module.node?
  simp only [listModify_get?, if_pos rfl]
  cases hg : m.nodes.get? n with
  | none =>
    have := List.get?_eq_none.mp hg
    omega
  | some nd => rfl

/-- Replacing a node with a `Const` gives its single output the argument
width. -/
theorem widthAt_replaceWithConstNode (m : Module) (n : Nat) (args : ConstArgs)
    (h : n < m.nodes.length) :
    (m.replaceWithConstNode n args).widthAt ⟨n, 0⟩ = args.width := by
  unfold Module.replaceWithConstNode Module.widthAt Module.output? Module.node?
  simp only [listModify_get?, if_pos rfl]
  cases hg : m.nodes.get? n with
  | none =>
    have := List.get?_eq_none.mp hg
    omega
  | some nd => rfl

/-- C5 counterexample: a `Merger` with `rev = true` over the width-1
constants `1` and `0` folds — in declared order, `rev` never consulted — to
the constant `2'b10 = 2`, while the claim's reversed-order reading demands
`2'b01 = 1`. -/
theorem C5_rev_merger_folds_declared :
    (transformMergerArm exCfg [] exM5 2).map (fun r => r.2.kindAt 2)
      = some (some (.const 2)) ∧
    mergerClaimValue exM5 2 = 1 ∧ (2 : Nat) ≠ 1 := by
  decide

/-- C5 (amended): a `Merger` node all of whose inputs are constant is
replaced by a `Const` whose value is the MSB-first concatenation of the
input values in declared (incoming-edge) order — for both values of the
`rev` flag, which the fold never consults — with output width equal to the
node's declared output width (the sum of the input widths for a well-formed
`Merger`, per `Merger::make`'s width assertion). -/
theorem C5_merger_fold_declared_order (cfg : NetListCfg) (cons : ConsMap)
    (m : Module) (n : Nat) (rev : Bool) (cvs : List ConstVal)
    (hk : m.kindAt n = some (.merger rev))
    (hvals : (m.incoming n).mapM m.to_const = some cvs)
    (hsum : (cvs.map ConstVal.width).sum ≤ 128)
    (hout : m.widthAt ⟨n, 0⟩ = (cvs.map ConstVal.width).sum) :
    (transformMergerArm cfg cons m n).map (fun r => r.2.kindAt n)
      = some (some (.const (concatMSB (cvs.map fun c => (c.width, c.val))))) ∧
    (transformMergerArm cfg cons m n).map (fun r => r.2.widthAt ⟨n, 0⟩)
      = some ((cvs.map ConstVal.width).sum) := by
  have hn : n < m.nodes.length := by
    unfold Module.kindAt Module.node? at hk
    cases hg : m.nodes.get? n with
    | none => rw [hg] at hk; cases hk
    | some nd => obtain ⟨h1, _⟩ := List.get?_eq_some.mp hg; exact h1
  have hfold := shift_foldlM cvs ⟨0, 0⟩
    (by simpa using hsum) (by norm_num)
  have hlt : concatAcc 0 (cvs.map fun c => (c.width, c.val))
      < 2 ^ ((cvs.map ConstVal.width).sum) := by
    have hbase := concatAcc_lt (cvs.map fun c => (c.width, c.val)) 0 0 (by norm_num)
    have hfst : ((cvs.map fun c => (c.width, c.val)).map Prod.fst)
        = cvs.map ConstVal.width := by
      simp [List.map_map, Function.comp]
    simpa [hfst] using hbase
  have hval : (⟨concatAcc 0 (cvs.map fun c => (c.width, c.val)),
      (cvs.map ConstVal.width).sum⟩ : ConstVal).value
      = concatMSB (cvs.map fun c => (c.width, c.val)) := by
    simp [ConstVal.value, val_, concatMSB, Nat.mod_eq_of_lt hlt]
  have harm : transformMergerArm cfg cons m n
      = some (replaceWithConst cfg cons m n
          { width := (((m.node? n).bind (fun nd => nd.outputs.get? 0)).getD
              { width := 0, sym := none, skip := true }).width
            value := concatMSB (cvs.map fun c => (c.width, c.val))
            sym := (((m.node? n).bind (fun nd => nd.outputs.get? 0)).getD
              { width := 0, sym := none, skip := true }).sym }) := by
    have h00 : ConstVal.new 0 0 = (⟨0, 0⟩ : ConstVal) := rfl
    unfold transformMergerArm
    simp only [hvals, h00, hfold, Nat.zero_add]
    rw [hval]
  have houtw : (((m.node? n).bind (fun nd => nd.outputs.get? 0)).getD
      { width := 0, sym := none, skip := true }).width
      = m.widthAt ⟨n, 0⟩ := by
    unfold Module.widthAt Module.output?
    dsimp only
    cases hg : m.node? n with
    | none => rfl
    | some nd =>
      cases hg2 : nd.outputs[0]? with
      | none => simp [Option.bind, hg2]
      | some o => simp [Option.bind, hg2]
  have hnodes : ∀ args : ConstArgs, (replaceWithConst cfg cons m n args).2.nodes
      = (m.replaceWithConstNode n args).nodes := by
    intro args
    unfold replaceWithConst
    exact eliminateConst_nodes _ _ _ _ _
  have hkAt : ∀ args : ConstArgs, (replaceWithConst cfg cons m n args).2.kindAt n
      = (m.replaceWithConstNode n args).kindAt n := by
    intro args
    unfold Module.kindAt Module.node?
    rw [hnodes args]
  have hwAt : ∀ args : ConstArgs,
      (replaceWithConst cfg cons m n args).2.widthAt ⟨n, 0⟩
        = (m.replaceWithConstNode n args).widthAt ⟨n, 0⟩ := by
    intro args
    unfold Module.widthAt Module.output? Module.node?
    rw [hnodes args]
  refine ⟨?_, ?_⟩
  · rw [harm]
    simp only [Option.map_some']
    rw [hkAt, kindAt_replaceWithConstNode _ _ _ hn]
  · rw [harm]
    simp only [Option.map_some']
    rw [hwAt, widthAt_replaceWithConstNode _ _ _ hn, houtw, hout]

/-- C5 witness: the reversed Merger `exM5` over constants `1'd1` and `1'd0`. -/
theorem C5_merger_fold_declared_order_witness :
    (exM5.kindAt 2 = some (.merger true) ∧
      (exM5.incoming 2).mapM exM5.to_const
        = some [⟨1, 1⟩, ⟨0, 1⟩] ∧
      (([⟨1, 1⟩, ⟨0, 1⟩] : List ConstVal).map ConstVal.width).sum ≤ 128 ∧
      exM5.widthAt ⟨2, 0⟩
        = (([⟨1, 1⟩, ⟨0, 1⟩] : List ConstVal).map ConstVal.width).sum) ∧
    ((transformMergerArm exCfg [] exM5 2).map (fun r => r.2.kindAt 2)
        = some (some (.const (concatMSB
            (([⟨1, 1⟩, ⟨0, 1⟩] : List ConstVal).map fun c => (c.width, c.val))))) ∧
      (transformMergerArm exCfg [] exM5 2).map (fun r => r.2.widthAt ⟨2, 0⟩)
        = some ((([⟨1, 1⟩, ⟨0, 1⟩] : List ConstVal).map ConstVal.width).sum)) :=
  ⟨⟨by decide, by decide, by decide, by decide⟩,
    C5_merger_fold_declared_order exCfg [] exM5 2 true [⟨1, 1⟩, ⟨0, 1⟩]
      (by decide) (by decide) (by decide) (by decide)⟩

/-- C4 counterexample: the caller `exCaller` has one module input and no
module outputs, the target `exTarget` has twelve nodes, is not hint-marked
and has non-constant outputs, and the instantiation's input is not constant.
The code inlines (its `module.mod_out_count() == 0` disjunct tests the
caller), while the claim's reading — caller with *no ports at all*, or the
*target's* node count below the threshold — says not to. -/
theorem C4_auto_inlines_without_caller_outputs :
    (transformModInstArm exCfg [] exCaller 1 exTarget).1 = true ∧
    autoInlineClaim exCaller exTarget 1 = false := by
  decide

/-- C4 (amended): with policy `Auto` and a target without all-constant
outputs, the inline decision is: target hint-marked inline, or the *caller*
has no module inputs, or the *caller* has no module outputs, or the
*caller's* node count is at most the threshold (10), or every input of the
instantiation is constant. -/
theorem C4_auto_inline_decision (cfg : NetListCfg) (cons : ConsMap)
    (m : Module) (n : Nat) (orig : Module) (hpol : cfg.inlineMod = .auto)
    (hco : orig.hasConstOutputs = false) :
    ((transformModInstArm cfg cons m n orig).1 = true ↔
      (orig.inline = true ∨ m.modInputs = [] ∨ m.modOutputs = []
        ∨ m.nodes.length ≤ NODES_LIMIT_TO_INLINE
        ∨ ∀ p ∈ m.incoming n, m.isConst p = true)) := by
  unfold transformModInstArm
  simp only [hco, hpol, Bool.false_eq_true, if_false]
  simp [Module.modInCount, Module.modOutCount, Module.nodeCount,
    Module.nodeHasConstInputs, List.length_eq_zero, List.all_eq_true,
    Bool.or_eq_true, beq_iff_eq, decide_eq_true_eq]
  tauto

/-- C4 witness: the concrete caller/target pair of the counterexample. -/
theorem C4_auto_inline_decision_witness :
    (exCfg.inlineMod = .auto ∧ exTarget.hasConstOutputs = false) ∧
    ((transformModInstArm exCfg [] exCaller 1 exTarget).1 = true ↔
      (exTarget.inline = true ∨ exCaller.modInputs = [] ∨ exCaller.modOutputs = []
        ∨ exCaller.nodes.length ≤ NODES_LIMIT_TO_INLINE
        ∨ ∀ p ∈ exCaller.incoming 1, exCaller.isConst p = true)) :=
  ⟨⟨rfl, by decide⟩,
    C4_auto_inline_decision exCfg [] exCaller 1 exTarget rfl (by decide)⟩

/-- C8 witness: a group of a 1-bit primitive, a 2-element array of 3-bit
primitives and a 5-bit primitive. -/
theorem C8_from_to_bitvec_roundTrip_witness :
    Item.wt (SignalTy.group [.prim 1, .array 2 (.prim 3), .prim 5])
      (Item.group [.prim 1 1, .group [.prim 3 5, .prim 3 2], .prim 5 19]) = true ∧
    ((SignalTy.group [.prim 1, .array 2 (.prim 3), .prim 5]).fromBits
        (Item.group [.prim 1 1, .group [.prim 3 5, .prim 3 2], .prim 5 19]).toBits
      = Item.group [.prim 1 1, .group [.prim 3 5, .prim 3 2], .prim 5 19] ∧
     (Item.group [.prim 1 1, .group [.prim 3 5, .prim 3 2], .prim 5 19]).width
      = (SignalTy.group [.prim 1, .array 2 (.prim 3), .prim 5]).width) :=
  ⟨by decide,
    C8_from_to_bitvec_roundTrip
      (SignalTy.group [.prim 1, .array 2 (.prim 3), .prim 5])
      (Item.group [.prim 1 1, .group [.prim 3 5, .prim 3 2], .prim 5 19])
      (by decide)⟩

end Fhdl
